import Mathlib

/-!
Verification of the inf_search_2 search engine against its specification.

The development shallowly embeds the C++ sources:
* `compression_utils.cpp` — VByte codec and posting-list compression
  (`vbyteEncode`, `vbyteDecode`, `vbyteSize`, `compressPostingList`,
  `decompressPostingList`);
* `text_utils.cpp` — UTF-8 analyzer (`stringToCodes`, `codesToString`,
  `charToLower`, `isValidSymbol`, `toLowerCase`, `tokenize`);
* `search_engine.cpp` — boolean query evaluation, TF-IDF ranking and
  index persistence.

Machine integers are modelled as `ℕ`/`ℤ`; a C++ byte is a `ℕ` below 256.
Bit operations of the source are rendered arithmetically where that is
exact for the value ranges involved (for a byte `b`, `b & 0x7F = b % 128`
and `(b & 0x80) != 0 ↔ 128 ≤ b`; for a non-negative int `v`,
`v >> 7 = v / 128` and `v | 0x80 = v + 128` when `v < 128`).
Fallible C++ code (functions that throw) returns `Option`, `none` being
the exceptional outcome; paths whose C++ behaviour is undefined (use of
an uninitialized variable in `loadIndex`) are also mapped to `none`.
`double` is modelled as `ℚ` where only finite comparisons matter.
-/

/-! ### VByte codec, from `compression_utils.cpp` -/

/-- `vbyteEncode` (compression_utils.cpp:7-18) on a non-negative value:
while `value >= 128` emit `value & 0x7F` and shift right by 7; finally
emit `value | 0x80` (the terminator byte with the high bit set). -/
def vbyteEncode (v : ℕ) : List ℕ :=
  if 128 ≤ v then (v % 128) :: vbyteEncode (v / 128) else [v + 128]
  decreasing_by exact Nat.div_lt_self (by omega) (by omega)

/-- Loop of `vbyteDecode` (compression_utils.cpp:20-44): read a byte,
or its low 7 bits shifted by `shift` into the accumulator; stop at a byte
with the high bit set; after each continuation byte `shift` grows by 7 and
the decoder throws (`none`) when `shift` exceeds 28.  When the data runs
out without a terminator the C++ loop simply ends and returns the
accumulator. -/
def vbyteDecodeLoop : List ℕ → ℕ → ℕ → Option (ℕ × List ℕ)
  | [], _, acc => some (acc, [])
  | b :: rest, shift, acc =>
    let acc2 := acc ||| ((b % 128) <<< shift)
    if 128 ≤ b then some (acc2, rest)
    else if 28 < shift + 7 then none
    else vbyteDecodeLoop rest (shift + 7) acc2

/-- `vbyteDecode` (compression_utils.cpp:20-44): throws (`none`) when the
offset is already at the end of the data, otherwise runs the decode loop.
The returned pair is the decoded value and the unconsumed remainder of
the data. -/
def vbyteDecode : List ℕ → Option (ℕ × List ℕ)
  | [] => none
  | b :: rest => vbyteDecodeLoop (b :: rest) 0 0

/-- Loop of `vbyteSize` (compression_utils.cpp:103-119): count the base-128
digits of a positive value. -/
def vbyteSizeLoop (v : ℕ) : ℕ :=
  if v = 0 then 0 else vbyteSizeLoop (v / 128) + 1
  decreasing_by exact Nat.div_lt_self (by omega) (by omega)

/-- `vbyteSize` (compression_utils.cpp:103-119): `0` needs one byte,
otherwise the number of 7-bit groups of the value.  (The `value < 0`
branch of the C++ source cannot arise for a `ℕ` argument.) -/
def vbyteSize (v : ℕ) : ℕ :=
  if v = 0 then 1 else vbyteSizeLoop v

/-- Loop of `compressPostingList` (compression_utils.cpp:46-76) with the
running `lastDocId`: reject a docId below the previous one and any
non-positive frequency, else emit the VByte of the delta followed by the
VByte of the frequency. -/
def compressLoop : List (ℤ × ℤ) → ℤ → Option (List ℕ)
  | [], _ => some []
  | (docId, freq) :: rest, lastDocId =>
    if docId < lastDocId then none
    else if freq ≤ 0 then none
    else
      match compressLoop rest docId with
      | none => none
      | some bs => some (vbyteEncode (docId - lastDocId).toNat ++ vbyteEncode freq.toNat ++ bs)

/-- `compressPostingList` (compression_utils.cpp:46-76).  An empty input
yields an empty byte vector; otherwise the loop starts with
`lastDocId = 0`.  `none` models the thrown `invalid_argument`. -/
def compressPostingList (postings : List (ℤ × ℤ)) : Option (List ℕ) :=
  if postings = [] then some [] else compressLoop postings 0

lemma vbyteDecodeLoop_length_le (l : List ℕ) :
    ∀ s acc v r, vbyteDecodeLoop l s acc = some (v, r) → r.length ≤ l.length := by
  induction l with
  | nil => intro s acc v r h; simp [vbyteDecodeLoop] at h; simp [h.2]
  | cons b rest ih =>
    intro s acc v r h
    simp only [vbyteDecodeLoop] at h
    split at h
    · simp only [Option.some.injEq, Prod.mk.injEq] at h
      simp [← h.2]
    · split at h
      · exact absurd h (by simp)
      · have := ih _ _ _ _ h
        simp
        omega

lemma vbyteDecode_length_lt (l : List ℕ) (v : ℕ) (r : List ℕ)
    (h : vbyteDecode l = some (v, r)) : r.length < l.length := by
  match l with
  | [] => simp [vbyteDecode] at h
  | b :: rest =>
    simp only [vbyteDecode, vbyteDecodeLoop] at h
    split at h
    · simp only [Option.some.injEq, Prod.mk.injEq] at h
      simp [← h.2]
    · split at h
      · exact absurd h (by simp)
      · have := vbyteDecodeLoop_length_le rest _ _ _ _ h
        simp
        omega

/-- Loop of `decompressPostingList` (compression_utils.cpp:78-101) with the
running `lastDocId`: while data remains, decode a delta and a frequency
(any decode error propagates) and append `(lastDocId + delta, freq)`. -/
def decompressLoop : List ℕ → ℤ → Option (List (ℤ × ℤ))
  | [], _ => some []
  | b :: rest, lastDocId =>
    match h1 : vbyteDecode (b :: rest) with
    | none => none
    | some (delta, r1) =>
      match h2 : vbyteDecode r1 with
      | none => none
      | some (freq, r2) =>
        match decompressLoop r2 (lastDocId + delta) with
        | none => none
        | some ps => some ((lastDocId + delta, (freq : ℤ)) :: ps)
  termination_by l _ => l.length
  decreasing_by
    have hlt1 : r1.length < (b :: rest).length := vbyteDecode_length_lt _ delta r1 h1
    have hlt2 : r2.length < r1.length := vbyteDecode_length_lt r1 freq r2 h2
    omega

/-- `decompressPostingList` (compression_utils.cpp:78-101): empty data
yields an empty posting list, otherwise run the loop from `lastDocId = 0`;
`none` models the rethrown decode exception. -/
def decompressPostingList (data : List ℕ) : Option (List (ℤ × ℤ)) :=
  if data = [] then some [] else decompressLoop data 0

lemma lor_two_pow_mul (s : ℕ) : ∀ a x : ℕ, a < 2 ^ s → a ||| (x <<< s) = a + x * 2 ^ s := by
  induction s with
  | zero =>
    intro a x h
    have ha : a = 0 := by omega
    subst ha
    simp [Nat.shiftLeft_eq]
  | succ s ih =>
    intro a x h
    rw [Nat.shiftLeft_eq]
    have hp : (2 : ℕ) ^ (s + 1) = 2 * 2 ^ s := by ring
    have hhalf : x * 2 ^ (s + 1) / 2 = x * 2 ^ s := by
      rw [show x * 2 ^ (s + 1) = x * 2 ^ s * 2 by ring]
      exact Nat.mul_div_cancel _ (by omega)
    have hd : (a ||| x * 2 ^ (s + 1)) / 2 = a / 2 + x * 2 ^ s := by
      rw [Nat.or_div_two, hhalf]
      have h2 : a / 2 < 2 ^ s := by omega
      have := ih (a / 2) x h2
      rwa [Nat.shiftLeft_eq] at this
    have hm : (a ||| x * 2 ^ (s + 1)) % 2 = a % 2 := by
      have hb : (x * 2 ^ (s + 1)) % 2 = 0 := by
        rw [show x * 2 ^ (s + 1) = x * 2 ^ s * 2 by ring]
        exact Nat.mul_mod_left _ _
      rcases Nat.mod_two_eq_zero_or_one a with ha | ha
      · rcases Nat.mod_two_eq_zero_or_one (a ||| x * 2 ^ (s + 1)) with hor | hor
        · omega
        · rw [Nat.or_mod_two_eq_one] at hor
          omega
      · rw [ha]
        rw [Nat.or_mod_two_eq_one]
        omega
    have hsplit := Nat.div_add_mod (a ||| x * 2 ^ (s + 1)) 2
    have hsplit2 := Nat.div_add_mod a 2
    have hx : x * 2 ^ (s + 1) = 2 * (x * 2 ^ s) := by ring
    omega

lemma vbyteEncode_ne_nil (v : ℕ) : vbyteEncode v ≠ [] := by
  rw [vbyteEncode]
  split <;> simp

lemma vbyteSizeLoop_le (k : ℕ) : ∀ v : ℕ, v < 128 ^ k → vbyteSizeLoop v ≤ k := by
  induction k with
  | zero =>
    intro v h
    have : v = 0 := by simpa using h
    rw [this, vbyteSizeLoop]
    simp
  | succ k ih =>
    intro v h
    rw [vbyteSizeLoop]
    split
    · omega
    · have : v / 128 < 128 ^ k := by
        rw [Nat.div_lt_iff_lt_mul (by omega)]
        calc v < 128 ^ (k + 1) := h
        _ = 128 ^ k * 128 := by ring
      have := ih _ this
      omega

lemma vbyteEncode_length (v : ℕ) : (vbyteEncode v).length = vbyteSize v := by
  induction v using vbyteEncode.induct with
  | case1 v hv ih =>
    rw [vbyteEncode, if_pos hv, vbyteSize, if_neg (by omega)]
    rw [vbyteSizeLoop, if_neg (by omega)]
    simp only [List.length_cons]
    rw [ih, vbyteSize]
    split
    · omega
    · rfl
  | case2 v hv =>
    rw [vbyteEncode, if_neg hv, vbyteSize]
    split
    · simp
    · rw [vbyteSizeLoop, if_neg (by omega)]
      have h0 : v / 128 = 0 := by omega
      rw [h0, vbyteSizeLoop]
      simp

lemma vbyteSize_le_five (v : ℕ) (h : v < 2 ^ 31) : vbyteSize v ≤ 5 := by
  rw [vbyteSize]
  split
  · omega
  · exact vbyteSizeLoop_le 5 v (by norm_num at h ⊢; omega)

lemma vbyteDecodeLoop_encode (v : ℕ) : ∀ (s acc : ℕ) (t : List ℕ),
    s + 7 * (vbyteEncode v).length ≤ 35 → acc < 2 ^ s →
    vbyteDecodeLoop (vbyteEncode v ++ t) s acc = some (acc + v * 2 ^ s, t) := by
  induction v using vbyteEncode.induct with
  | case1 v hv ih =>
    intro s acc t hlen hacc
    rw [vbyteEncode, if_pos hv] at hlen ⊢
    simp only [List.length_cons] at hlen
    have hlen2 : 1 ≤ (vbyteEncode (v / 128)).length :=
      List.length_pos.mpr (vbyteEncode_ne_nil _)
    simp only [List.cons_append, List.append_eq, vbyteDecodeLoop]
    rw [if_neg (by omega), if_neg (by omega)]
    have hmod : v % 128 % 128 = v % 128 := by omega
    have hacc2 : acc ||| (v % 128 % 128) <<< s = acc + v % 128 * 2 ^ s := by
      rw [hmod]
      exact lor_two_pow_mul s acc (v % 128) hacc
    rw [hacc2]
    have hpow : (2 : ℕ) ^ (s + 7) = 128 * 2 ^ s := by ring
    have hacc3 : acc + v % 128 * 2 ^ s < 2 ^ (s + 7) := by
      have : v % 128 ≤ 127 := by omega
      have h1 : v % 128 * 2 ^ s ≤ 127 * 2 ^ s := Nat.mul_le_mul_right _ this
      omega
    rw [ih (s + 7) (acc + v % 128 * 2 ^ s) t (by omega) hacc3]
    congr 2
    have hdm : 128 * (v / 128) + v % 128 = v := by omega
    calc acc + v % 128 * 2 ^ s + v / 128 * 2 ^ (s + 7)
        = acc + v % 128 * 2 ^ s + v / 128 * (128 * 2 ^ s) := by rw [hpow]
      _ = acc + (v % 128 + 128 * (v / 128)) * 2 ^ s := by ring
      _ = acc + v * 2 ^ s := by rw [Nat.add_comm (v % 128), hdm]
  | case2 v hv =>
    intro s acc t hlen hacc
    rw [vbyteEncode, if_neg hv]
    simp only [List.cons_append, List.append_eq, List.nil_append, vbyteDecodeLoop]
    rw [if_pos (by omega)]
    have hmod : (v + 128) % 128 = v := by omega
    rw [hmod, lor_two_pow_mul s acc v hacc]

lemma vbyteDecode_encode_append (v : ℕ) (t : List ℕ) (h : v < 2 ^ 31) :
    vbyteDecode (vbyteEncode v ++ t) = some (v, t) := by
  have hlen : (vbyteEncode v).length ≤ 5 := by
    rw [vbyteEncode_length]
    exact vbyteSize_le_five v h
  have hloop := vbyteDecodeLoop_encode v 0 0 t (by omega) (by norm_num)
  simp only [pow_zero, Nat.mul_one, Nat.zero_add] at hloop
  cases henc : vbyteEncode v with
  | nil => exact absurd henc (vbyteEncode_ne_nil v)
  | cons b l =>
    rw [henc] at hloop
    simp only [List.cons_append] at hloop
    show vbyteDecodeLoop (b :: (l ++ t)) 0 0 = some (v, t)
    exact hloop

lemma decompressLoop_cons (delta freq : ℕ) (bs : List ℕ) (last : ℤ)
    (hdelta : delta < 2 ^ 31) (hfreq : freq < 2 ^ 31) :
    decompressLoop (vbyteEncode delta ++ (vbyteEncode freq ++ bs)) last =
      match decompressLoop bs (last + delta) with
      | none => none
      | some ps => some ((last + delta, (freq : ℤ)) :: ps) := by
  have hdec1 := vbyteDecode_encode_append delta (vbyteEncode freq ++ bs) hdelta
  have hdec2 := vbyteDecode_encode_append freq bs hfreq
  cases henc : vbyteEncode delta with
  | nil => exact absurd henc (vbyteEncode_ne_nil delta)
  | cons b l =>
    rw [henc] at hdec1
    simp only [List.cons_append] at hdec1 ⊢
    rw [decompressLoop]
    split
    · rename_i heq
      rw [hdec1] at heq
      exact absurd heq (by simp)
    · rename_i delta2 r1 heq
      rw [hdec1] at heq
      simp only [Option.some.injEq, Prod.mk.injEq] at heq
      obtain ⟨hq1, hq2⟩ := heq
      subst hq1
      subst hq2
      split
      · rename_i heq2
        rw [hdec2] at heq2
        exact absurd heq2 (by simp)
      · rename_i freq2 r2 heq2
        rw [hdec2] at heq2
        simp only [Option.some.injEq, Prod.mk.injEq] at heq2
        obtain ⟨hq3, hq4⟩ := heq2
        subst hq3
        subst hq4
        rfl

lemma compress_decompress_loop : ∀ (ps : List (ℤ × ℤ)) (last : ℤ),
    0 ≤ last →
    (∀ p ∈ ps, p.1 < 2 ^ 31 ∧ 1 ≤ p.2 ∧ p.2 < 2 ^ 31) →
    List.Chain' (fun a b : ℤ × ℤ => a.1 < b.1) ps →
    (∀ q ∈ ps.head?, last ≤ q.1) →
    ∃ bs, compressLoop ps last = some bs ∧ decompressLoop bs last = some ps := by
  intro ps
  induction ps with
  | nil =>
    intro last _ _ _ _
    exact ⟨[], rfl, by rw [decompressLoop]⟩
  | cons p rest ih =>
    intro last hlast hmem hchain hhead
    obtain ⟨d, f⟩ := p
    have hle : last ≤ d := hhead (d, f) (by simp)
    have hb := hmem (d, f) (by simp)
    simp only at hb
    have hchain2 : List.Chain' (fun a b : ℤ × ℤ => a.1 < b.1) rest := hchain.tail
    have hhead2 : ∀ q ∈ rest.head?, d ≤ q.1 := by
      intro q hq
      cases rest with
      | nil => simp at hq
      | cons r rs =>
        simp only [List.head?_cons, Option.mem_def, Option.some.injEq] at hq
        subst hq
        have := List.chain'_cons.mp hchain
        exact le_of_lt this.1
    obtain ⟨bs2, hc2, hd2⟩ := ih d (by omega) (fun q hq => hmem q (by simp [hq])) hchain2 hhead2
    refine ⟨vbyteEncode (d - last).toNat ++ vbyteEncode f.toNat ++ bs2, ?_, ?_⟩
    · rw [compressLoop, if_neg (by omega), if_neg (by omega), hc2]
    · have hdelta : (d - last).toNat < 2 ^ 31 := by omega
      have hfreq : f.toNat < 2 ^ 31 := by omega
      rw [List.append_assoc, decompressLoop_cons _ _ _ _ hdelta hfreq]
      have hid : last + ((d - last).toNat : ℤ) = d := by omega
      have hif : ((f.toNat : ℤ)) = f := by omega
      rw [hid, hd2, hif]

/-- Claim C1: for every posting list sorted strictly ascending by docId with
frequencies in `[1, 2^31)` and docIds in `[0, 2^31)` (the `int` range of the
source), `decompressPostingList (compressPostingList P) = P`, and compressing
the empty list yields the empty byte sequence. -/
theorem c1_compress_roundtrip (ps : List (ℤ × ℤ))
    (hsorted : List.Chain' (fun a b : ℤ × ℤ => a.1 < b.1) ps)
    (hmem : ∀ p ∈ ps, 0 ≤ p.1 ∧ p.1 < 2 ^ 31 ∧ 1 ≤ p.2 ∧ p.2 < 2 ^ 31) :
    compressPostingList [] = some [] ∧
    ∃ bs, compressPostingList ps = some bs ∧ decompressPostingList bs = some ps := by
  constructor
  · rfl
  · cases hps : ps with
    | nil => exact ⟨[], rfl, rfl⟩
    | cons p rest =>
      subst hps
      obtain ⟨bs, hc, hd⟩ :=
        compress_decompress_loop (p :: rest) 0 le_rfl
          (fun q hq => ⟨(hmem q hq).2.1, (hmem q hq).2.2.1, (hmem q hq).2.2.2⟩)
          hsorted
          (fun q hq => by
            simp only [List.head?_cons, Option.mem_def, Option.some.injEq] at hq
            rw [← hq]
            exact (hmem p (by simp)).1)
      have hbs : bs ≠ [] := by
        intro hnil
        rw [hnil, decompressLoop] at hd
        simp at hd
      refine ⟨bs, ?_, ?_⟩
      · rw [compressPostingList, if_neg (by simp)]
        exact hc
      · rw [decompressPostingList, if_neg hbs]
        exact hd

/-- Witness for C1 at the concrete posting list `[(1,1),(3,2)]`. -/
theorem c1_compress_roundtrip_witness :
    compressPostingList [((1 : ℤ), (1 : ℤ)), (3, 2)] = some [129, 129, 130, 130] ∧
    decompressPostingList [129, 129, 130, 130] = some [((1 : ℤ), (1 : ℤ)), (3, 2)] := by
  have e1 : vbyteEncode 1 = [129] := by rw [vbyteEncode]; norm_num
  have e2 : vbyteEncode 2 = [130] := by rw [vbyteEncode]; norm_num
  have e3 : Int.toNat 2 = 2 := rfl
  have hc : compressPostingList [((1 : ℤ), (1 : ℤ)), (3, 2)] = some [129, 129, 130, 130] := by
    rw [compressPostingList, if_neg (by simp), compressLoop, if_neg (by norm_num),
      if_neg (by norm_num), compressLoop, if_neg (by norm_num), if_neg (by norm_num),
      compressLoop]
    norm_num [e1, e2, e3]
  have hchain : List.Chain' (fun a b : ℤ × ℤ => a.1 < b.1) [(1, 1), (3, 2)] := by
    norm_num [List.chain'_cons]
  have hmem : ∀ p ∈ [((1 : ℤ), (1 : ℤ)), (3, 2)],
      0 ≤ p.1 ∧ p.1 < 2 ^ 31 ∧ 1 ≤ p.2 ∧ p.2 < 2 ^ 31 := by
    intro p hp
    simp only [List.mem_cons, List.not_mem_nil, or_false] at hp
    rcases hp with rfl | rfl <;> norm_num
  obtain ⟨-, bs, h1, h2⟩ := c1_compress_roundtrip [(1, 1), (3, 2)] hchain hmem
  have hbs : bs = [129, 129, 130, 130] := by
    rw [hc] at h1
    exact (Option.some.injEq _ _).mp h1.symm
  rw [hbs] at h2
  exact ⟨hc, h2⟩

lemma vbyteSizeLoop_eq_digits_length (v : ℕ) :
    vbyteSizeLoop v = (Nat.digits 128 v).length := by
  induction v using vbyteSizeLoop.induct with
  | case1 =>
    rw [vbyteSizeLoop]
    simp
  | case2 v hv ih =>
    rw [vbyteSizeLoop, if_neg hv]
    rw [Nat.digits_def' (by norm_num : 1 < 128) (by omega)]
    simp [ih]

/-- Claim C2: for every `v < 2^31`, decoding the bytes produced by
`vbyteEncode v` returns `v` with no bytes left over, the number of emitted
bytes equals `vbyteSize v`, `vbyteSize 0 = 1`, for positive `v` the size is
the number of base-128 (7-bit) groups of `v`, and the sample values of the
claim hold. -/
theorem c2_vbyte_roundtrip (v : ℕ) (h : v < 2 ^ 31) :
    vbyteDecode (vbyteEncode v) = some (v, []) ∧
    (vbyteEncode v).length = vbyteSize v ∧
    vbyteSize 0 = 1 ∧
    (0 < v → vbyteSize v = (Nat.digits 128 v).length) ∧
    vbyteSize 127 = 1 ∧ vbyteSize 128 = 2 ∧ vbyteSize 16383 = 2 ∧ vbyteSize 16384 = 3 := by
  have s0 : vbyteSizeLoop 0 = 0 := by rw [vbyteSizeLoop]; simp
  have s1 : vbyteSizeLoop 1 = 1 := by rw [vbyteSizeLoop]; norm_num [s0]
  have s127 : vbyteSizeLoop 127 = 1 := by rw [vbyteSizeLoop]; norm_num [s0]
  have s128 : vbyteSizeLoop 128 = 2 := by rw [vbyteSizeLoop]; norm_num [s1]
  have q16383 : vbyteSizeLoop 16383 = 2 := by rw [vbyteSizeLoop]; norm_num [s127]
  have q16384 : vbyteSizeLoop 16384 = 3 := by rw [vbyteSizeLoop]; norm_num [s128]
  refine ⟨?_, vbyteEncode_length v, rfl, ?_, ?_, ?_, ?_, ?_⟩
  · have := vbyteDecode_encode_append v [] h
    rwa [List.append_nil] at this
  · intro hv
    rw [vbyteSize, if_neg (by omega)]
    exact vbyteSizeLoop_eq_digits_length v
  · rw [vbyteSize, if_neg (by norm_num)]
    exact s127
  · rw [vbyteSize, if_neg (by norm_num)]
    exact s128
  · rw [vbyteSize, if_neg (by norm_num)]
    exact q16383
  · rw [vbyteSize, if_neg (by norm_num)]
    exact q16384

/-- Witness for C2 at `v = 300`. -/
theorem c2_vbyte_roundtrip_witness :
    vbyteDecode (vbyteEncode 300) = some (300, []) ∧
    (vbyteEncode 300).length = vbyteSize 300 := by
  have h := c2_vbyte_roundtrip 300 (by norm_num)
  exact ⟨h.1, h.2.1⟩

lemma compressLoop_some_iff : ∀ (ps : List (ℤ × ℤ)) (last : ℤ),
    (∃ bs, compressLoop ps last = some bs) ↔
      (List.Chain' (· ≤ ·) (last :: ps.map Prod.fst) ∧ ∀ p ∈ ps, 0 < p.2) := by
  intro ps
  induction ps with
  | nil =>
    intro last
    simp [compressLoop]
  | cons p rest ih =>
    intro last
    obtain ⟨d, f⟩ := p
    rw [compressLoop]
    constructor
    · rintro ⟨bs, hbs⟩
      split at hbs
      · exact absurd hbs (by simp)
      · split at hbs
        · exact absurd hbs (by simp)
        · rename_i hlt hf
          split at hbs
          · exact absurd hbs (by simp)
          · rename_i bs2 hc2
            have hrest := (ih d).mp ⟨bs2, hc2⟩
            refine ⟨?_, ?_⟩
            · simp only [List.map_cons]
              rw [List.chain'_cons]
              exact ⟨by omega, hrest.1⟩
            · intro q hq
              rcases List.mem_cons.mp hq with rfl | hq2
              · simpa using by omega
              · exact hrest.2 q hq2
    · rintro ⟨hchain, hpos⟩
      simp only [List.map_cons, List.chain'_cons] at hchain
      have hle : last ≤ d := hchain.1
      have hf : 0 < f := by simpa using hpos (d, f) (by simp)
      rw [if_neg (by omega), if_neg (by omega)]
      obtain ⟨bs2, hc2⟩ := (ih d).mpr ⟨hchain.2, fun q hq => hpos q (by simp [hq])⟩
      rw [hc2]
      exact ⟨_, rfl⟩

/-- Counterexample for C7: the list `[(1,1),(1,1)]` is not sorted strictly
ascending by docId, yet `compressPostingList` accepts it (the source only
rejects `docId < lastDocId`, so duplicate docIds pass). -/
theorem c7_counterexample :
    ¬ List.Chain' (fun a b : ℤ × ℤ => a.1 < b.1) [(1, 1), (1, 1)] ∧
    compressPostingList [((1 : ℤ), (1 : ℤ)), (1, 1)] ≠ none := by
  constructor
  · rw [List.chain'_cons]
    norm_num
  · have e1 : vbyteEncode 1 = [129] := by rw [vbyteEncode]; norm_num
    have e0 : vbyteEncode 0 = [128] := by rw [vbyteEncode]; norm_num
    have hc : compressPostingList [((1 : ℤ), (1 : ℤ)), (1, 1)] = some [129, 129, 128, 129] := by
      rw [compressPostingList, if_neg (by simp), compressLoop, if_neg (by norm_num),
        if_neg (by norm_num), compressLoop, if_neg (by norm_num), if_neg (by norm_num),
        compressLoop]
      norm_num [e1, e0]
    rw [hc]
    simp

/-- Amended C7: `compressPostingList` fails exactly when some docId is
smaller than its predecessor (with predecessor `0` before the first posting)
or some frequency is non-positive; equivalently, it succeeds exactly on the
lists whose docId sequence is non-decreasing starting from `0` (duplicates
allowed) with all frequencies positive. -/
theorem c7_compress_failure_characterization (ps : List (ℤ × ℤ)) :
    (∃ bs, compressPostingList ps = some bs) ↔
      (List.Chain' (· ≤ ·) ((0 : ℤ) :: ps.map Prod.fst) ∧ ∀ p ∈ ps, 0 < p.2) := by
  rw [compressPostingList]
  by_cases hps : ps = []
  · subst hps
    simp
  · rw [if_neg hps]
    exact compressLoop_some_iff ps 0

/-! ### Text analyzer, from `text_utils.cpp`

Byte strings are `List ℕ` with entries below 256; code points are `ℕ`.
The byte classifications of the source are rendered arithmetically:
for a byte `b < 256`, `(b & 0xE0) == 0xC0 ↔ 192 ≤ b < 224`,
`(b & 0xF0) == 0xE0 ↔ 224 ≤ b < 240`, `(b & 0xF8) == 0xF0 ↔ 240 ≤ b < 248`,
`(b & 0xC0) == 0x80 ↔ 128 ≤ b < 192` (continuation byte), and the payload
masks are `b & 0x1F = b % 32`, `b & 0x0F = b % 16`, `b & 0x07 = b % 8`,
`b & 0x3F = b % 64`. -/

/-- `isContinuationByte` (text_utils.cpp:5): `(b & 0xC0) == 0x80`. -/
def isContinuationByte (b : ℕ) : Bool :=
  128 ≤ b ∧ b < 192

/-- `TextUtils::stringToCodes` (text_utils.cpp:7-58).  ASCII bytes pass
through; 2-, 3- and 4-byte lead bytes collect their continuation bytes;
a lead byte whose declared sequence would run past the end of the input
hits the `break` and discards the rest; a malformed lead byte or a lead
byte followed by a non-continuation byte within range advances by one
byte and continues. -/
def stringToCodes : List ℕ → List ℕ
  | [] => []
  | b :: rest =>
    if b < 128 then b :: stringToCodes rest
    else if 192 ≤ b ∧ b < 224 then
      if rest.length < 1 then []
      else
        let b1 := rest.getD 0 0
        if isContinuationByte b1 then
          ((b % 32) * 64 + b1 % 64) :: stringToCodes (rest.drop 1)
        else stringToCodes rest
    else if 224 ≤ b ∧ b < 240 then
      if rest.length < 2 then []
      else
        let b1 := rest.getD 0 0
        let b2 := rest.getD 1 0
        if isContinuationByte b1 then
          if isContinuationByte b2 then
            (((b % 16) * 64 + b1 % 64) * 64 + b2 % 64) :: stringToCodes (rest.drop 2)
          else stringToCodes rest
        else stringToCodes rest
    else if 240 ≤ b ∧ b < 248 then
      if rest.length < 3 then []
      else
        let b1 := rest.getD 0 0
        let b2 := rest.getD 1 0
        let b3 := rest.getD 2 0
        if isContinuationByte b1 then
          if isContinuationByte b2 then
            if isContinuationByte b3 then
              ((((b % 8) * 64 + b1 % 64) * 64 + b2 % 64) * 64 + b3 % 64) :: stringToCodes (rest.drop 3)
            else stringToCodes rest
          else stringToCodes rest
        else stringToCodes rest
    else stringToCodes rest
  termination_by l => l.length
  decreasing_by all_goals (first | (simp [List.length_drop]; omega) | simp [List.length_drop] | omega)

/-- Encoding of one code point by `TextUtils::codesToString`
(text_utils.cpp:60-83): 1 to 4 UTF-8 bytes depending on the value; code
points above `0x10FFFF` produce nothing. -/
def encodeCode (c : ℕ) : List ℕ :=
  if c ≤ 0x7F then [c]
  else if c ≤ 0x7FF then [192 + (c / 64) % 32, 128 + c % 64]
  else if c ≤ 0xFFFF then [224 + (c / 4096) % 16, 128 + (c / 64) % 64, 128 + c % 64]
  else if c ≤ 0x10FFFF then
    [240 + (c / 262144) % 8, 128 + (c / 4096) % 64, 128 + (c / 64) % 64, 128 + c % 64]
  else []

/-- `TextUtils::codesToString` (text_utils.cpp:60-83). -/
def codesToString : List ℕ → List ℕ
  | [] => []
  | c :: rest => encodeCode c ++ codesToString rest

/-- `TextUtils::charToLower` (text_utils.cpp:85-99): ASCII `A`–`Z` and
Cyrillic `U+0410`–`U+042F` shift by `+0x20`; `U+0401` (Ё) maps to
`U+0451` (ё); everything else passes through. -/
def charToLower (c : ℕ) : ℕ :=
  if 65 ≤ c ∧ c ≤ 90 then c + 32
  else if 0x410 ≤ c ∧ c ≤ 0x42F then c + 0x20
  else if c = 0x401 then 0x451
  else c

/-- `TextUtils::isValidSymbol` (text_utils.cpp:101-117): ASCII letters,
ASCII digits, or the Cyrillic block `U+0400`–`U+04FF`. -/
def isValidSymbol (c : ℕ) : Bool :=
  if (65 ≤ c ∧ c ≤ 90) ∨ (97 ≤ c ∧ c ≤ 122) then true
  else if 48 ≤ c ∧ c ≤ 57 then true
  else if 0x400 ≤ c ∧ c ≤ 0x4FF then true
  else false

/-- `TextUtils::toLowerCase` (text_utils.cpp:119-127): decode, case-fold
every code point, re-encode. -/
def toLowerCase (s : List ℕ) : List ℕ :=
  codesToString ((stringToCodes s).map charToLower)

/-- Loop of `TextUtils::tokenize` (text_utils.cpp:129-150) over the decoded
code points, carrying the current token: word symbols are lower-cased and
appended; a separator flushes the non-empty current token; the trailing
token is flushed at the end. -/
def tokenizeLoop : List ℕ → List ℕ → List (List ℕ)
  | [], cur => if cur = [] then [] else [codesToString cur]
  | c :: rest, cur =>
    if isValidSymbol c then tokenizeLoop rest (cur ++ [charToLower c])
    else if cur = [] then tokenizeLoop rest []
    else codesToString cur :: tokenizeLoop rest []

/-- `TextUtils::tokenize` (text_utils.cpp:129-150). -/
def tokenize (text : List ℕ) : List (List ℕ) :=
  tokenizeLoop (stringToCodes text) []

lemma isContinuationByte_true {b : ℕ} (h : 128 ≤ b ∧ b < 192) :
    isContinuationByte b = true := by
  simp [isContinuationByte]
  omega

lemma isContinuationByte_false {b : ℕ} (h : ¬ (128 ≤ b ∧ b < 192)) :
    isContinuationByte b = false := by
  simp [isContinuationByte]
  omega


lemma stringToCodes_ascii (b : ℕ) (rest : List ℕ) (hb : b < 128) :
    stringToCodes (b :: rest) = b :: stringToCodes rest := by
  rw [stringToCodes, if_pos hb]

lemma stringToCodes_two (b b1 : ℕ) (rest : List ℕ)
    (hb : 192 ≤ b ∧ b < 224) (hb1 : 128 ≤ b1 ∧ b1 < 192) :
    stringToCodes (b :: b1 :: rest) = ((b % 32) * 64 + b1 % 64) :: stringToCodes rest := by
  rw [stringToCodes, if_neg (by omega), if_pos hb, if_neg (by simp)]
  simp [isContinuationByte_true hb1]

lemma stringToCodes_two_bad (b b1 : ℕ) (rest : List ℕ)
    (hb : 192 ≤ b ∧ b < 224) (hb1 : ¬ (128 ≤ b1 ∧ b1 < 192)) :
    stringToCodes (b :: b1 :: rest) = stringToCodes (b1 :: rest) := by
  rw [stringToCodes, if_neg (by omega), if_pos hb, if_neg (by simp)]
  simp [isContinuationByte_false hb1]

lemma stringToCodes_two_trunc (b : ℕ) (hb : 192 ≤ b ∧ b < 224) :
    stringToCodes [b] = [] := by
  rw [stringToCodes, if_neg (by omega), if_pos hb, if_pos (by simp)]

lemma stringToCodes_three (b b1 b2 : ℕ) (rest : List ℕ)
    (hb : 224 ≤ b ∧ b < 240) (hb1 : 128 ≤ b1 ∧ b1 < 192) (hb2 : 128 ≤ b2 ∧ b2 < 192) :
    stringToCodes (b :: b1 :: b2 :: rest) =
      (((b % 16) * 64 + b1 % 64) * 64 + b2 % 64) :: stringToCodes rest := by
  rw [stringToCodes, if_neg (by omega), if_neg (by omega), if_pos hb, if_neg (by simp)]
  simp [isContinuationByte_true hb1, isContinuationByte_true hb2]

lemma stringToCodes_three_bad1 (b b1 b2 : ℕ) (rest : List ℕ)
    (hb : 224 ≤ b ∧ b < 240) (hb1 : ¬ (128 ≤ b1 ∧ b1 < 192)) :
    stringToCodes (b :: b1 :: b2 :: rest) = stringToCodes (b1 :: b2 :: rest) := by
  rw [stringToCodes, if_neg (by omega), if_neg (by omega), if_pos hb, if_neg (by simp)]
  simp [isContinuationByte_false hb1]

lemma stringToCodes_three_bad2 (b b1 b2 : ℕ) (rest : List ℕ)
    (hb : 224 ≤ b ∧ b < 240) (hb1 : 128 ≤ b1 ∧ b1 < 192) (hb2 : ¬ (128 ≤ b2 ∧ b2 < 192)) :
    stringToCodes (b :: b1 :: b2 :: rest) = stringToCodes (b1 :: b2 :: rest) := by
  rw [stringToCodes, if_neg (by omega), if_neg (by omega), if_pos hb, if_neg (by simp)]
  simp [isContinuationByte_true hb1, isContinuationByte_false hb2]

lemma stringToCodes_three_trunc (b : ℕ) (rest : List ℕ)
    (hb : 224 ≤ b ∧ b < 240) (hlen : rest.length < 2) :
    stringToCodes (b :: rest) = [] := by
  rw [stringToCodes, if_neg (by omega), if_neg (by omega), if_pos hb, if_pos hlen]

lemma stringToCodes_four (b b1 b2 b3 : ℕ) (rest : List ℕ)
    (hb : 240 ≤ b ∧ b < 248) (hb1 : 128 ≤ b1 ∧ b1 < 192) (hb2 : 128 ≤ b2 ∧ b2 < 192)
    (hb3 : 128 ≤ b3 ∧ b3 < 192) :
    stringToCodes (b :: b1 :: b2 :: b3 :: rest) =
      ((((b % 8) * 64 + b1 % 64) * 64 + b2 % 64) * 64 + b3 % 64) :: stringToCodes rest := by
  rw [stringToCodes, if_neg (by omega), if_neg (by omega), if_neg (by omega), if_pos hb,
    if_neg (by simp)]
  simp [isContinuationByte_true hb1, isContinuationByte_true hb2, isContinuationByte_true hb3]

lemma stringToCodes_four_bad1 (b b1 b2 b3 : ℕ) (rest : List ℕ)
    (hb : 240 ≤ b ∧ b < 248) (hb1 : ¬ (128 ≤ b1 ∧ b1 < 192)) :
    stringToCodes (b :: b1 :: b2 :: b3 :: rest) = stringToCodes (b1 :: b2 :: b3 :: rest) := by
  rw [stringToCodes, if_neg (by omega), if_neg (by omega), if_neg (by omega), if_pos hb,
    if_neg (by simp)]
  simp [isContinuationByte_false hb1]

lemma stringToCodes_four_bad2 (b b1 b2 b3 : ℕ) (rest : List ℕ)
    (hb : 240 ≤ b ∧ b < 248) (hb1 : 128 ≤ b1 ∧ b1 < 192) (hb2 : ¬ (128 ≤ b2 ∧ b2 < 192)) :
    stringToCodes (b :: b1 :: b2 :: b3 :: rest) = stringToCodes (b1 :: b2 :: b3 :: rest) := by
  rw [stringToCodes, if_neg (by omega), if_neg (by omega), if_neg (by omega), if_pos hb,
    if_neg (by simp)]
  simp [isContinuationByte_true hb1, isContinuationByte_false hb2]

lemma stringToCodes_four_bad3 (b b1 b2 b3 : ℕ) (rest : List ℕ)
    (hb : 240 ≤ b ∧ b < 248) (hb1 : 128 ≤ b1 ∧ b1 < 192) (hb2 : 128 ≤ b2 ∧ b2 < 192)
    (hb3 : ¬ (128 ≤ b3 ∧ b3 < 192)) :
    stringToCodes (b :: b1 :: b2 :: b3 :: rest) = stringToCodes (b1 :: b2 :: b3 :: rest) := by
  rw [stringToCodes, if_neg (by omega), if_neg (by omega), if_neg (by omega), if_pos hb,
    if_neg (by simp)]
  simp [isContinuationByte_true hb1, isContinuationByte_true hb2, isContinuationByte_false hb3]

lemma stringToCodes_four_trunc (b : ℕ) (rest : List ℕ)
    (hb : 240 ≤ b ∧ b < 248) (hlen : rest.length < 3) :
    stringToCodes (b :: rest) = [] := by
  rw [stringToCodes, if_neg (by omega), if_neg (by omega), if_neg (by omega), if_pos hb,
    if_pos hlen]

lemma stringToCodes_skip (b : ℕ) (rest : List ℕ)
    (hb : ¬ b < 128) (h2 : ¬ (192 ≤ b ∧ b < 224)) (h3 : ¬ (224 ≤ b ∧ b < 240))
    (h4 : ¬ (240 ≤ b ∧ b < 248)) :
    stringToCodes (b :: rest) = stringToCodes rest := by
  rw [stringToCodes, if_neg hb, if_neg h2, if_neg h3, if_neg h4]

lemma stringToCodes_encodeCode (c : ℕ) (rest : List ℕ) :
    stringToCodes (encodeCode c ++ rest) =
      if c ≤ 0x10FFFF then c :: stringToCodes rest else stringToCodes rest := by
  by_cases h1 : c ≤ 0x7F
  · rw [encodeCode, if_pos h1]
    simp only [List.cons_append, List.nil_append]
    rw [stringToCodes_ascii c rest (by omega), if_pos (by omega)]
  · by_cases h2 : c ≤ 0x7FF
    · rw [encodeCode, if_neg h1, if_pos h2]
      simp only [List.cons_append, List.nil_append]
      rw [stringToCodes_two _ _ rest (by omega) (by omega), if_pos (by omega)]
      congr 1
      omega
    · by_cases h3 : c ≤ 0xFFFF
      · rw [encodeCode, if_neg h1, if_neg h2, if_pos h3]
        simp only [List.cons_append, List.nil_append]
        rw [stringToCodes_three _ _ _ rest (by omega) (by omega) (by omega), if_pos (by omega)]
        congr 1
        omega
      · by_cases h4 : c ≤ 0x10FFFF
        · rw [encodeCode, if_neg h1, if_neg h2, if_neg h3, if_pos h4]
          simp only [List.cons_append, List.nil_append]
          rw [stringToCodes_four _ _ _ _ rest (by omega) (by omega) (by omega) (by omega),
            if_pos h4]
          congr 1
          omega
        · rw [encodeCode, if_neg h1, if_neg h2, if_neg h3, if_neg h4, if_neg h4]
          simp

lemma stringToCodes_codesToString (cs : List ℕ) :
    stringToCodes (codesToString cs) = cs.filter (fun c => c ≤ 0x10FFFF) := by
  induction cs with
  | nil => rw [codesToString, stringToCodes, List.filter_nil]
  | cons c rest ih =>
    rw [codesToString, stringToCodes_encodeCode, List.filter_cons]
    by_cases h : c ≤ 0x10FFFF
    · rw [if_pos h, if_pos (by simpa using h), ih]
    · rw [if_neg h, if_neg (by simpa using h), ih]

lemma codesToString_filter (cs : List ℕ) :
    codesToString (cs.filter (fun c => c ≤ 0x10FFFF)) = codesToString cs := by
  induction cs with
  | nil => rfl
  | cons c rest ih =>
    rw [List.filter_cons]
    by_cases h : c ≤ 0x10FFFF
    · rw [if_pos (by simpa using h), codesToString, codesToString, ih]
    · rw [if_neg (by simpa using h), codesToString, ih]
      have : encodeCode c = [] := by
        rw [encodeCode, if_neg (by omega), if_neg (by omega), if_neg (by omega), if_neg (by omega)]
      rw [this, List.nil_append]

lemma charToLower_idem (c : ℕ) : charToLower (charToLower c) = charToLower c := by
  simp only [charToLower]
  split_ifs <;> omega

/-- Claim C10: `toLowerCase` is idempotent on every byte string, including
malformed UTF-8: the first application normalizes (drops undecodable bytes
and out-of-range code points, re-encodes) and the second is the identity on
the result. -/
theorem c10_toLowerCase_idempotent (s : List ℕ) :
    toLowerCase (toLowerCase s) = toLowerCase s := by
  unfold toLowerCase
  rw [stringToCodes_codesToString]
  have hmap : (((stringToCodes s).map charToLower).filter (fun c => c ≤ 0x10FFFF)).map
      charToLower = ((stringToCodes s).map charToLower).filter (fun c => c ≤ 0x10FFFF) := by
    have hfix : ∀ x ∈ ((stringToCodes s).map charToLower).filter (fun c => c ≤ 0x10FFFF),
        charToLower x = x := by
      intro x hx
      have hx2 := List.mem_of_mem_filter hx
      obtain ⟨y, _, rfl⟩ := List.mem_map.mp hx2
      exact charToLower_idem y
    calc (((stringToCodes s).map charToLower).filter (fun c => c ≤ 0x10FFFF)).map charToLower
        = (((stringToCodes s).map charToLower).filter (fun c => c ≤ 0x10FFFF)).map id :=
          List.map_congr_left hfix
      _ = _ := List.map_id _
  rw [hmap, codesToString_filter]

/-- Counterexample for C4: the truncated 4-byte lead `0xF0` followed by the
two valid ASCII characters `a b` makes the decoder hit its `break`,
discarding the remaining valid bytes instead of advancing one byte: the
result is empty, and so is the token list, while the claim demands the
terms of the trailing valid characters. -/
theorem c4_counterexample :
    stringToCodes [240, 97, 98] = [] ∧ stringToCodes [97, 98] = [97, 98] ∧
    tokenize [240, 97, 98] = [] ∧ tokenize [97, 98] = [[97, 98]] := by
  have hd : stringToCodes [240, 97, 98] = [] :=
    stringToCodes_four_trunc 240 [97, 98] (by omega) (by simp)
  have ha : stringToCodes [97, 98] = [97, 98] := by
    rw [stringToCodes_ascii _ _ (by omega), stringToCodes_ascii _ _ (by omega), stringToCodes]
  refine ⟨hd, ha, ?_, ?_⟩
  · rw [tokenize, hd]
    rfl
  · rw [tokenize, ha]
    decide

/-- Amended C4: a malformed lead byte (a continuation byte `0x80`–`0xBF` in
lead position, or a byte `0xF8`–`0xFF`) is skipped with a one-byte advance,
and so is a lead byte whose first failing continuation check happens within
the input; but a lead byte whose declared sequence would run past the end of
the input terminates decoding, discarding it and all remaining bytes. -/
theorem c4_utf8_error_handling :
    (∀ b rest, 128 ≤ b → (b < 192 ∨ 248 ≤ b) →
      stringToCodes (b :: rest) = stringToCodes rest) ∧
    (∀ b b1 rest, 192 ≤ b → b < 224 → ¬ (128 ≤ b1 ∧ b1 < 192) →
      stringToCodes (b :: b1 :: rest) = stringToCodes (b1 :: rest)) ∧
    (∀ b b1 b2 rest, 224 ≤ b → b < 240 →
      (¬ (128 ≤ b1 ∧ b1 < 192) ∨ ((128 ≤ b1 ∧ b1 < 192) ∧ ¬ (128 ≤ b2 ∧ b2 < 192))) →
      stringToCodes (b :: b1 :: b2 :: rest) = stringToCodes (b1 :: b2 :: rest)) ∧
    (∀ b b1 b2 b3 rest, 240 ≤ b → b < 248 →
      (¬ (128 ≤ b1 ∧ b1 < 192) ∨ ((128 ≤ b1 ∧ b1 < 192) ∧ ¬ (128 ≤ b2 ∧ b2 < 192)) ∨
        ((128 ≤ b1 ∧ b1 < 192) ∧ (128 ≤ b2 ∧ b2 < 192) ∧ ¬ (128 ≤ b3 ∧ b3 < 192))) →
      stringToCodes (b :: b1 :: b2 :: b3 :: rest) = stringToCodes (b1 :: b2 :: b3 :: rest)) ∧
    (∀ b rest, 192 ≤ b → b < 224 → rest.length < 1 → stringToCodes (b :: rest) = []) ∧
    (∀ b rest, 224 ≤ b → b < 240 → rest.length < 2 → stringToCodes (b :: rest) = []) ∧
    (∀ b rest, 240 ≤ b → b < 248 → rest.length < 3 → stringToCodes (b :: rest) = []) := by
  refine ⟨?_, ?_, ?_, ?_, ?_, ?_, ?_⟩
  · intro b rest h1 h2
    exact stringToCodes_skip b rest (by omega) (by omega) (by omega) (by omega)
  · intro b b1 rest h1 h2 h3
    exact stringToCodes_two_bad b b1 rest ⟨h1, h2⟩ h3
  · intro b b1 b2 rest h1 h2 h3
    rcases h3 with h3 | ⟨h3, h4⟩
    · exact stringToCodes_three_bad1 b b1 b2 rest ⟨h1, h2⟩ h3
    · exact stringToCodes_three_bad2 b b1 b2 rest ⟨h1, h2⟩ h3 h4
  · intro b b1 b2 b3 rest h1 h2 h3
    rcases h3 with h3 | ⟨h3, h4⟩ | ⟨h3, h4, h5⟩
    · exact stringToCodes_four_bad1 b b1 b2 b3 rest ⟨h1, h2⟩ h3
    · exact stringToCodes_four_bad2 b b1 b2 b3 rest ⟨h1, h2⟩ h3 h4
    · exact stringToCodes_four_bad3 b b1 b2 b3 rest ⟨h1, h2⟩ h3 h4 h5
  · intro b rest h1 h2 h3
    match rest, h3 with
    | [], _ => exact stringToCodes_two_trunc b ⟨h1, h2⟩
  · intro b rest h1 h2 h3
    exact stringToCodes_three_trunc b rest ⟨h1, h2⟩ h3
  · intro b rest h1 h2 h3
    exact stringToCodes_four_trunc b rest ⟨h1, h2⟩ h3

/-- Witness for the amended C4: a lone continuation byte is skipped by one,
and a 3-byte lead followed by a single byte truncates to nothing. -/
theorem c4_utf8_error_handling_witness :
    stringToCodes [128, 97] = stringToCodes [97] ∧ stringToCodes [224, 97] = [] := by
  exact ⟨c4_utf8_error_handling.1 128 [97] (by omega) (by omega),
    c4_utf8_error_handling.2.2.2.2.2.1 224 [97] (by omega) (by omega) (by simp)⟩

lemma isValidSymbol_iff (c : ℕ) : isValidSymbol c = true ↔
    ((65 ≤ c ∧ c ≤ 90) ∨ (97 ≤ c ∧ c ≤ 122) ∨ (48 ≤ c ∧ c ≤ 57) ∨
      (0x400 ≤ c ∧ c ≤ 0x4FF)) := by
  rw [isValidSymbol]
  split_ifs with h1 h2 h3 <;> simp <;> omega

lemma isValidSymbol_charToLower (c : ℕ) (h : isValidSymbol c = true) :
    isValidSymbol (charToLower c) = true := by
  rw [isValidSymbol_iff] at h ⊢
  simp only [charToLower]
  split_ifs <;> omega

lemma encodeCode_ne_nil (c : ℕ) (h : c ≤ 0x10FFFF) : encodeCode c ≠ [] := by
  rw [encodeCode]
  split_ifs <;> simp

lemma tokenizeLoop_all_valid : ∀ (codes cur : List ℕ),
    (∀ c ∈ codes, isValidSymbol c = true) →
    tokenizeLoop codes cur =
      if cur ++ codes.map charToLower = [] then []
      else [codesToString (cur ++ codes.map charToLower)] := by
  intro codes
  induction codes with
  | nil =>
    intro cur h
    rw [tokenizeLoop]
    simp
  | cons c rest ih =>
    intro cur h
    rw [tokenizeLoop, if_pos (h c (by simp))]
    rw [ih (cur ++ [charToLower c]) (fun x hx => h x (by simp [hx]))]
    simp [List.append_assoc]

lemma tokenizeLoop_token_shape : ∀ (codes cur : List ℕ),
    (∀ c ∈ cur, ∃ c0, isValidSymbol c0 = true ∧ c = charToLower c0) →
    ∀ t ∈ tokenizeLoop codes cur,
      ∃ cs : List ℕ, cs ≠ [] ∧
        (∀ c ∈ cs, ∃ c0, isValidSymbol c0 = true ∧ c = charToLower c0) ∧
        t = codesToString cs := by
  intro codes
  induction codes with
  | nil =>
    intro cur hcur t ht
    rw [tokenizeLoop] at ht
    split at ht
    · simp at ht
    · rename_i hcurne
      simp only [List.mem_singleton] at ht
      exact ⟨cur, hcurne, hcur, ht⟩
  | cons c rest ih =>
    intro cur hcur t ht
    rw [tokenizeLoop] at ht
    split at ht
    · rename_i hvalid
      refine ih (cur ++ [charToLower c]) ?_ t ht
      intro x hx
      rcases List.mem_append.mp hx with hx1 | hx2
      · exact hcur x hx1
      · simp only [List.mem_singleton] at hx2
        exact ⟨c, hvalid, hx2⟩
    · split at ht
      · exact ih [] (by simp) t ht
      · rename_i hvalid hcurne
        rcases List.mem_cons.mp ht with rfl | ht2
        · exact ⟨cur, hcurne, hcur, rfl⟩
        · exact ih [] (by simp) t ht2

/-- Claim C9: every term emitted by `tokenize` is non-empty, all of its code
points are word symbols (ASCII letters, digits, or `U+0400`–`U+04FF`), and
re-tokenizing a single emitted term yields exactly that term back. -/
theorem c9_tokenize_terms (s t : List ℕ) (ht : t ∈ tokenize s) :
    t ≠ [] ∧ (∀ c ∈ stringToCodes t, isValidSymbol c = true) ∧ tokenize t = [t] := by
  obtain ⟨cs, hne, hcs, rfl⟩ :=
    tokenizeLoop_token_shape (stringToCodes s) [] (by simp) t ht
  have hvalid : ∀ c ∈ cs, isValidSymbol c = true := by
    intro c hc
    obtain ⟨c0, h0, rfl⟩ := hcs c hc
    exact isValidSymbol_charToLower c0 h0
  have hle : ∀ c ∈ cs, c ≤ 0x10FFFF := by
    intro c hc
    have := (isValidSymbol_iff c).mp (hvalid c hc)
    omega
  have hfix : ∀ c ∈ cs, charToLower c = c := by
    intro c hc
    obtain ⟨c0, h0, rfl⟩ := hcs c hc
    exact charToLower_idem c0
  have hrt : stringToCodes (codesToString cs) = cs := by
    rw [stringToCodes_codesToString]
    exact List.filter_eq_self.mpr (fun c hc => by simpa using hle c hc)
  have hmapfix : cs.map charToLower = cs := by
    calc cs.map charToLower = cs.map id := List.map_congr_left hfix
      _ = cs := List.map_id _
  refine ⟨?_, ?_, ?_⟩
  · cases cs with
    | nil => exact absurd rfl hne
    | cons c rest =>
      rw [codesToString]
      have henc : encodeCode c ≠ [] := encodeCode_ne_nil c (hle c (by simp))
      simp [henc]
  · rw [hrt]
    exact hvalid
  · rw [tokenize, hrt, tokenizeLoop_all_valid cs [] hvalid]
    rw [List.nil_append, hmapfix, if_neg hne]

/-- Witness for C9 on the input `"cat d"` and its first emitted term `"cat"`. -/
theorem c9_tokenize_terms_witness :
    ([99, 97, 116] : List ℕ) ≠ [] ∧
    (∀ c ∈ stringToCodes [99, 97, 116], isValidSymbol c = true) ∧
    tokenize [99, 97, 116] = [[99, 97, 116]] := by
  have hs : stringToCodes [99, 97, 116, 32, 100] = [99, 97, 116, 32, 100] := by
    rw [stringToCodes_ascii _ _ (by omega), stringToCodes_ascii _ _ (by omega),
      stringToCodes_ascii _ _ (by omega), stringToCodes_ascii _ _ (by omega),
      stringToCodes_ascii _ _ (by omega), stringToCodes]
  have ht : ([99, 97, 116] : List ℕ) ∈ tokenize [99, 97, 116, 32, 100] := by
    rw [tokenize, hs]
    decide
  exact c9_tokenize_terms [99, 97, 116, 32, 100] [99, 97, 116] ht

/-! ### Boolean query engine, from `search_engine.cpp`

`std::set<int>` is modelled as `Finset ℕ`; the ascending iteration of a
`std::set` is `Finset.sort (· ≤ ·)`.  The mapping from a term to its
posting-list docId set (`getDocumentsForTerm`, which decompresses the
stored bytes) is abstracted as a function `docsOf`, and the on-disk content
check `verifyRequiredTermsInDocument` (which reads the corpus from the
filesystem) as a function `verify`. -/

/-- `BooleanQuery` (search_engine.hpp:275-282). -/
structure BooleanQuery (α : Type) where
  requiredTerms : List α
  excludedTerms : List α
  optionalTerms : List α

/-- Loop over the required terms of `executeBooleanQuery`
(search_engine.cpp:489-513) after the first term has seeded the candidate
set: an empty posting set or an empty intersection returns early (`none`). -/
def requiredLoop {α : Type} (docsOf : α → Finset ℕ) : List α → Finset ℕ → Option (Finset ℕ)
  | [], acc => some acc
  | t :: ts, acc =>
    if docsOf t = ∅ then none
    else if acc ∩ docsOf t = ∅ then none
    else requiredLoop docsOf ts (acc ∩ docsOf t)

/-- Candidate set of the required-terms phase (search_engine.cpp:489-513):
the first term seeds the set, later terms intersect; `none` is the early
`return {}`. -/
def requiredCandidates {α : Type} (docsOf : α → Finset ℕ) : List α → Option (Finset ℕ)
  | [] => none
  | t :: ts => if docsOf t = ∅ then none else requiredLoop docsOf ts (docsOf t)

/-- Union of the posting sets of a list of terms, as accumulated by the
optional-terms and excluded-terms loops (search_engine.cpp:516-522,528-533). -/
def unionDocs {α : Type} (docsOf : α → Finset ℕ) (ts : List α) : Finset ℕ :=
  ts.foldl (fun s t => s ∪ docsOf t) ∅

/-- Candidate set of `executeBooleanQuery` just before the content
verification pass (search_engine.cpp:486-540): intersection of the required
sets (empty on early return), else union of the optional sets, minus the
union of the excluded sets when exclusions are present. -/
def boolCandidates {α : Type} (docsOf : α → Finset ℕ) (q : BooleanQuery α) : Finset ℕ :=
  if q.requiredTerms.isEmpty then
    if q.optionalTerms.isEmpty then ∅
    else if q.excludedTerms.isEmpty then unionDocs docsOf q.optionalTerms
    else unionDocs docsOf q.optionalTerms \ unionDocs docsOf q.excludedTerms
  else
    match requiredCandidates docsOf q.requiredTerms with
    | none => ∅
    | some cand =>
      if q.excludedTerms.isEmpty then cand
      else cand \ unionDocs docsOf q.excludedTerms

/-- `SearchEngine::executeBooleanQuery` (search_engine.cpp:483-553): with
required terms, the surviving candidates are verified against the document
content (`verify`) in ascending docId order; without required terms the
candidate set is returned in ascending docId order; with no terms at all
the result is empty. -/
def executeBooleanQuery {α : Type} (docsOf : α → Finset ℕ) (verify : ℕ → List α → Bool)
    (q : BooleanQuery α) : List ℕ :=
  if q.requiredTerms.isEmpty then
    if q.optionalTerms.isEmpty then []
    else ((boolCandidates docsOf q).sort (· ≤ ·))
  else
    match requiredCandidates docsOf q.requiredTerms with
    | none => []
    | some _ =>
      ((boolCandidates docsOf q).sort (· ≤ ·)).filter (fun d => verify d q.requiredTerms)

lemma requiredLoop_some {α : Type} (docsOf : α → Finset ℕ) :
    ∀ (ts : List α) (acc c : Finset ℕ), requiredLoop docsOf ts acc = some c →
      c = ts.foldl (fun s t => s ∩ docsOf t) acc := by
  intro ts
  induction ts with
  | nil =>
    intro acc c h
    rw [requiredLoop] at h
    simp only [Option.some.injEq] at h
    simp [h]
  | cons t ts ih =>
    intro acc c h
    rw [requiredLoop] at h
    split at h
    · exact absurd h (by simp)
    · split at h
      · exact absurd h (by simp)
      · exact ih _ _ h

lemma foldl_inter_empty {α : Type} (docsOf : α → Finset ℕ) :
    ∀ ts : List α, (List.foldl (fun s t => s ∩ docsOf t) ∅ ts) = ∅ := by
  intro ts
  induction ts with
  | nil => rfl
  | cons t ts ih => simpa using ih

lemma requiredLoop_none {α : Type} (docsOf : α → Finset ℕ) :
    ∀ (ts : List α) (acc : Finset ℕ), requiredLoop docsOf ts acc = none →
      ts.foldl (fun s t => s ∩ docsOf t) acc = ∅ := by
  intro ts
  induction ts with
  | nil =>
    intro acc h
    rw [requiredLoop] at h
    simp at h
  | cons t ts ih =>
    intro acc h
    rw [requiredLoop] at h
    split at h
    · rename_i hemp
      simp only [List.foldl_cons, hemp, Finset.inter_empty]
      exact foldl_inter_empty docsOf ts
    · split at h
      · rename_i hint
        simp only [List.foldl_cons, hint]
        exact foldl_inter_empty docsOf ts
      · exact ih _ h

lemma mem_foldl_inter {α : Type} (docsOf : α → Finset ℕ) :
    ∀ (ts : List α) (acc : Finset ℕ) (d : ℕ),
      d ∈ ts.foldl (fun s t => s ∩ docsOf t) acc ↔ d ∈ acc ∧ ∀ t ∈ ts, d ∈ docsOf t := by
  intro ts
  induction ts with
  | nil => intro acc d; simp
  | cons t ts ih =>
    intro acc d
    simp only [List.foldl_cons, ih, Finset.mem_inter, List.mem_cons]
    constructor
    · rintro ⟨⟨h1, h2⟩, h3⟩
      exact ⟨h1, fun x hx => by rcases hx with rfl | hx; exacts [h2, h3 x hx]⟩
    · rintro ⟨h1, h2⟩
      exact ⟨⟨h1, h2 t (Or.inl rfl)⟩, fun x hx => h2 x (Or.inr hx)⟩

lemma mem_unionDocs {α : Type} (docsOf : α → Finset ℕ) :
    ∀ (ts : List α) (d : ℕ), d ∈ unionDocs docsOf ts ↔ ∃ t ∈ ts, d ∈ docsOf t := by
  have haux : ∀ (ts : List α) (acc : Finset ℕ) (d : ℕ),
      d ∈ ts.foldl (fun s t => s ∪ docsOf t) acc ↔ d ∈ acc ∨ ∃ t ∈ ts, d ∈ docsOf t := by
    intro ts
    induction ts with
    | nil => intro acc d; simp
    | cons t ts ih =>
      intro acc d
      simp only [List.foldl_cons, ih, Finset.mem_union, List.mem_cons]
      constructor
      · rintro ((h1 | h2) | ⟨x, hx, hd⟩)
        · exact Or.inl h1
        · exact Or.inr ⟨t, Or.inl rfl, h2⟩
        · exact Or.inr ⟨x, Or.inr hx, hd⟩
      · rintro (h1 | ⟨x, rfl | hx, hd⟩)
        · exact Or.inl (Or.inl h1)
        · exact Or.inl (Or.inr hd)
        · exact Or.inr ⟨x, hx, hd⟩
  intro ts d
  rw [unionDocs, haux]
  simp

lemma mem_requiredCandidates {α : Type} (docsOf : α → Finset ℕ) (t : α) (ts : List α) (d : ℕ) :
    (∀ c, requiredCandidates docsOf (t :: ts) = some c →
      (d ∈ c ↔ ∀ x ∈ t :: ts, d ∈ docsOf x)) ∧
    (requiredCandidates docsOf (t :: ts) = none → ¬ ∀ x ∈ t :: ts, d ∈ docsOf x) := by
  rw [requiredCandidates]
  by_cases hemp : docsOf t = ∅
  · rw [if_pos hemp]
    constructor
    · intro c hc
      exact absurd hc (by simp)
    · intro _ hall
      have := hall t (by simp)
      rw [hemp] at this
      simp at this
  · rw [if_neg hemp]
    constructor
    · intro c hc
      have hfold := requiredLoop_some docsOf ts (docsOf t) c hc
      subst hfold
      rw [mem_foldl_inter]
      constructor
      · rintro ⟨h1, h2⟩ x hx
        rcases List.mem_cons.mp hx with rfl | hx2
        · exact h1
        · exact h2 x hx2
      · intro hall
        exact ⟨hall t (by simp), fun x hx => hall x (by simp [hx])⟩
    · intro hnone hall
      have hfold := requiredLoop_none docsOf ts (docsOf t) hnone
      have hd : d ∈ List.foldl (fun s x => s ∩ docsOf x) (docsOf t) ts :=
        (mem_foldl_inter docsOf ts (docsOf t) d).mpr
          ⟨hall t (by simp), fun x hx => hall x (by simp [hx])⟩
      rw [hfold] at hd
      simp at hd

/-- Claim C5: for every index state (`docsOf`), verification predicate and
parsed boolean query: with required terms, the candidate set before content
verification is the intersection of the required posting sets minus the
union of the excluded sets, a required term with an empty set forces an
empty result, and the returned list is the ascending candidate list filtered
by content verification; with only optional terms the candidates are the
union minus the exclusions and are returned in ascending docId order; with
no terms the result is empty. -/
lemma boolCandidates_req_none {α : Type} (docsOf : α → Finset ℕ) (q : BooleanQuery α)
    (t : α) (ts : List α) (hq : q.requiredTerms = t :: ts)
    (hcand : requiredCandidates docsOf (t :: ts) = none) :
    boolCandidates docsOf q = ∅ := by
  rw [boolCandidates, if_neg (by simp [hq]), hq, hcand]

lemma boolCandidates_req_some {α : Type} (docsOf : α → Finset ℕ) (q : BooleanQuery α)
    (t : α) (ts : List α) (cand : Finset ℕ) (hq : q.requiredTerms = t :: ts)
    (hcand : requiredCandidates docsOf (t :: ts) = some cand) :
    boolCandidates docsOf q =
      if q.excludedTerms.isEmpty then cand
      else cand \ unionDocs docsOf q.excludedTerms := by
  rw [boolCandidates, if_neg (by simp [hq]), hq, hcand]

lemma executeBooleanQuery_req_none {α : Type} (docsOf : α → Finset ℕ)
    (verify : ℕ → List α → Bool) (q : BooleanQuery α)
    (t : α) (ts : List α) (hq : q.requiredTerms = t :: ts)
    (hcand : requiredCandidates docsOf (t :: ts) = none) :
    executeBooleanQuery docsOf verify q = [] := by
  rw [executeBooleanQuery, if_neg (by simp [hq]), hq, hcand]

lemma executeBooleanQuery_req_some {α : Type} (docsOf : α → Finset ℕ)
    (verify : ℕ → List α → Bool) (q : BooleanQuery α)
    (t : α) (ts : List α) (cand : Finset ℕ) (hq : q.requiredTerms = t :: ts)
    (hcand : requiredCandidates docsOf (t :: ts) = some cand) :
    executeBooleanQuery docsOf verify q =
      ((boolCandidates docsOf q).sort (· ≤ ·)).filter (fun d => verify d q.requiredTerms) := by
  rw [executeBooleanQuery, if_neg (by simp [hq]), hq, hcand]

/-- Claim C5: for every index state (`docsOf`), verification predicate and
parsed boolean query: with required terms, the candidate set before content
verification is the intersection of the required posting sets minus the
union of the excluded sets, a required term with an empty set forces an
empty result, and the returned list is the ascending candidate list filtered
by content verification; with only optional terms the candidates are the
union minus the exclusions and are returned in ascending docId order; with
no terms the result is empty. -/
theorem c5_boolean_query_semantics {α : Type} (docsOf : α → Finset ℕ)
    (verify : ℕ → List α → Bool) (q : BooleanQuery α) :
    ((∃ t ∈ q.requiredTerms, docsOf t = ∅) → executeBooleanQuery docsOf verify q = []) ∧
    (q.requiredTerms ≠ [] → ∀ d : ℕ,
      d ∈ boolCandidates docsOf q ↔
        ((∀ t ∈ q.requiredTerms, d ∈ docsOf t) ∧ ¬ ∃ t ∈ q.excludedTerms, d ∈ docsOf t)) ∧
    (q.requiredTerms ≠ [] →
      executeBooleanQuery docsOf verify q =
        ((boolCandidates docsOf q).sort (· ≤ ·)).filter (fun d => verify d q.requiredTerms)) ∧
    (q.requiredTerms = [] → q.optionalTerms ≠ [] → (∀ d : ℕ,
      d ∈ boolCandidates docsOf q ↔
        ((∃ t ∈ q.optionalTerms, d ∈ docsOf t) ∧ ¬ ∃ t ∈ q.excludedTerms, d ∈ docsOf t)) ∧
      executeBooleanQuery docsOf verify q = (boolCandidates docsOf q).sort (· ≤ ·)) ∧
    (q.requiredTerms = [] → q.optionalTerms = [] →
      executeBooleanQuery docsOf verify q = []) := by
  have hmemCand : q.requiredTerms ≠ [] → ∀ d : ℕ,
      d ∈ boolCandidates docsOf q ↔
        ((∀ t ∈ q.requiredTerms, d ∈ docsOf t) ∧ ¬ ∃ t ∈ q.excludedTerms, d ∈ docsOf t) := by
    intro hreq d
    cases hq : q.requiredTerms with
    | nil => exact absurd hq hreq
    | cons t ts =>
      obtain ⟨hsome, hnone⟩ := mem_requiredCandidates docsOf t ts d
      cases hcand : requiredCandidates docsOf (t :: ts) with
      | none =>
        rw [boolCandidates_req_none docsOf q t ts hq hcand]
        simp only [Finset.not_mem_empty, false_iff]
        intro h
        exact hnone hcand h.1
      | some cand =>
        rw [boolCandidates_req_some docsOf q t ts cand hq hcand]
        by_cases hexc : q.excludedTerms.isEmpty
        · rw [if_pos hexc]
          have hnil : q.excludedTerms = [] := by
            cases hq2 : q.excludedTerms with
            | nil => rfl
            | cons a l => rw [hq2] at hexc; simp at hexc
          rw [hsome cand hcand, hnil]
          simp
        · rw [if_neg hexc, Finset.mem_sdiff, hsome cand hcand, mem_unionDocs]
  refine ⟨?_, hmemCand, ?_, ?_, ?_⟩
  · rintro ⟨t0, ht0, hemp⟩
    have hreq : q.requiredTerms ≠ [] := by
      intro h
      rw [h] at ht0
      simp at ht0
    have hcand_empty : boolCandidates docsOf q = ∅ := by
      apply Finset.eq_empty_of_forall_not_mem
      intro d hd
      have := ((hmemCand hreq d).mp hd).1 t0 ht0
      rw [hemp] at this
      simp at this
    cases hq : q.requiredTerms with
    | nil => exact absurd hq hreq
    | cons t ts =>
      cases hcand : requiredCandidates docsOf (t :: ts) with
      | none => exact executeBooleanQuery_req_none docsOf verify q t ts hq hcand
      | some cand =>
        rw [executeBooleanQuery_req_some docsOf verify q t ts cand hq hcand, hcand_empty]
        simp
  · intro hreq
    cases hq : q.requiredTerms with
    | nil => exact absurd hq hreq
    | cons t ts =>
      cases hcand : requiredCandidates docsOf (t :: ts) with
      | none =>
        rw [executeBooleanQuery_req_none docsOf verify q t ts hq hcand,
          boolCandidates_req_none docsOf q t ts hq hcand]
        simp
      | some cand => rw [executeBooleanQuery_req_some docsOf verify q t ts cand hq hcand, hq]
  · intro hreq hopt
    have hoptE : q.optionalTerms.isEmpty = false := by
      cases ho : q.optionalTerms with
      | nil => exact absurd ho hopt
      | cons t ts => rfl
    constructor
    · intro d
      rw [boolCandidates, if_pos (by simp [hreq]), if_neg (by simp [hoptE])]
      by_cases hexc : q.excludedTerms.isEmpty
      · rw [if_pos hexc]
        have hnil : q.excludedTerms = [] := by
          cases hq2 : q.excludedTerms with
          | nil => rfl
          | cons a l => rw [hq2] at hexc; simp at hexc
        rw [mem_unionDocs, hnil]
        simp
      · rw [if_neg hexc, Finset.mem_sdiff, mem_unionDocs, mem_unionDocs]
    · rw [executeBooleanQuery, if_pos (by simp [hreq]), if_neg (by simp [hoptE])]
  · intro hreq hopt
    rw [executeBooleanQuery, if_pos (by simp [hreq]), if_pos (by simp [hopt])]

/-- Witness for C5 with the index `0 ↦ {1,2}, other ↦ {2,3}` and the query
`+0 +1`: document 2 is the (only) candidate, lying in both posting sets. -/
theorem c5_boolean_query_semantics_witness :
    (2 : ℕ) ∈ boolCandidates (fun t : ℕ => if t = 0 then ({1, 2} : Finset ℕ) else {2, 3})
      ⟨[0, 1], [], []⟩ := by
  refine ((c5_boolean_query_semantics (fun t : ℕ => if t = 0 then ({1, 2} : Finset ℕ)
    else {2, 3}) (fun _ _ => true) ⟨[0, 1], [], []⟩).2.1 (by simp) 2).mpr ⟨?_, ?_⟩
  · intro t ht
    rcases List.mem_cons.mp ht with rfl | ht2
    · decide
    · simp only [List.mem_singleton] at ht2
      subst ht2
      decide
  · simp

/-! ### TF-IDF ranking, from `search_engine.cpp`

`double` scores are modelled as `ℚ` (only order comparisons are involved).
The accumulated `std::map<int, double>` is a list of `(docId, score)` pairs
in ascending key order.  `std::sort` with the comparator
`a.score > b.score` guarantees only that the output is a permutation of the
input that is sorted with respect to the comparator (`¬ (b.score > a.score)`
for every earlier `a` and later `b`); the order of tied elements is
unspecified, so `rankDocuments` is modelled as the relation between the
score map and the possible outputs. -/

/-- `minTfIdfScore` (search_engine.hpp:261). -/
def minTfIdfScore : ℚ := 0.05

/-- Threshold filter of `rankDocuments` (search_engine.cpp:670-674): keep
the entries with `score >= minTfIdfScore`, in map (ascending docId) order. -/
def rankFilter (scores : List (ℕ × ℚ)) : List (ℕ × ℚ) :=
  scores.filter (fun e => minTfIdfScore ≤ e.2)

/-- `rankDocuments` (search_engine.cpp:664-682) as a relation: `out` is a
possible result exactly when it is a permutation of the kept entries that
is sorted with respect to the comparator `a.score > b.score` (that is,
`¬ (b.score > a.score)` pairwise) — everything `std::sort` guarantees. -/
def rankDocumentsRel (scores : List (ℕ × ℚ)) (out : List (ℕ × ℚ)) : Prop :=
  out.Perm (rankFilter scores) ∧ out.Sorted (fun a b => ¬ (b.2 > a.2))

/-- Counterexample for C6: on the accumulated score map `{1 ↦ 1, 2 ↦ 1}`
the output `[(2,1), (1,1)]` is a possible result of `rankDocuments`
(a permutation of the kept entries, non-increasing in score), yet it does
not break the tie by smaller docId. -/
theorem c6_counterexample :
    rankDocumentsRel [(1, (1 : ℚ)), (2, 1)] [(2, (1 : ℚ)), (1, 1)] ∧
    ¬ List.Sorted (fun a b : ℕ × ℚ => b.2 < a.2 ∨ (a.2 = b.2 ∧ a.1 < b.1))
      [((2 : ℕ), (1 : ℚ)), (1, 1)] := by
  refine ⟨⟨?_, ?_⟩, ?_⟩
  · have hf : rankFilter [(1, (1 : ℚ)), (2, 1)] = [(1, (1 : ℚ)), (2, 1)] := by
      rw [rankFilter]
      have : minTfIdfScore ≤ (1 : ℚ) := by norm_num [minTfIdfScore]
      simp [this]
    rw [hf]
    exact List.Perm.swap _ _ _
  · simp [List.sorted_cons]
  · intro h
    rw [List.sorted_cons] at h
    have := h.1 (1, 1) (by simp)
    simp at this

/-- Amended C6: every possible output of `rankDocuments` contains exactly
the documents of the score map with `score >= minTfIdfScore = 0.05`, is
sorted by non-increasing score, and at least one such output exists — but
the relative order of equal scores is unspecified (no docId tie-break). -/
theorem c6_rank_documents (scores out : List (ℕ × ℚ)) (h : rankDocumentsRel scores out) :
    (∀ e, e ∈ out ↔ (e ∈ scores ∧ minTfIdfScore ≤ e.2)) ∧
    out.Sorted (fun a b => b.2 ≤ a.2) ∧
    ∃ out2, rankDocumentsRel scores out2 := by
  obtain ⟨hperm, hsort⟩ := h
  refine ⟨?_, ?_, ?_⟩
  · intro e
    rw [hperm.mem_iff, rankFilter, List.mem_filter]
    simp
  · exact hsort.imp (fun hab => not_lt.mp hab)
  · haveI : IsTotal (ℕ × ℚ) (fun a b => b.2 ≤ a.2) := ⟨fun a b => le_total b.2 a.2⟩
    haveI : IsTrans (ℕ × ℚ) (fun a b => b.2 ≤ a.2) := ⟨fun _ _ _ hab hbc => le_trans hbc hab⟩
    refine ⟨List.insertionSort (fun a b => b.2 ≤ a.2) (rankFilter scores), ?_, ?_⟩
    · exact List.perm_insertionSort _ _
    · exact (List.sorted_insertionSort (fun a b => b.2 ≤ a.2) (rankFilter scores)).imp
        (fun hab => not_lt.mpr hab)

/-- Witness for the amended C6 at the single-entry score map `{1 ↦ 1}`. -/
theorem c6_rank_documents_witness :
    ((1 : ℕ), (1 : ℚ)) ∈ ([((1 : ℕ), (1 : ℚ))] : List (ℕ × ℚ)) ∧ minTfIdfScore ≤ (1 : ℚ) := by
  have hf : rankFilter [((1 : ℕ), (1 : ℚ))] = [((1 : ℕ), (1 : ℚ))] := by
    rw [rankFilter]
    have : minTfIdfScore ≤ (1 : ℚ) := by norm_num [minTfIdfScore]
    simp [this]
  have h := c6_rank_documents [((1 : ℕ), (1 : ℚ))] [((1 : ℕ), (1 : ℚ))]
    ⟨by rw [hf], by simp⟩
  exact (h.1 (1, 1)).mp (by simp)

/-! ### Index persistence, from `search_engine.cpp`

The inverted-index file is the concatenation of records
`u32 termLen | term bytes | u32 dataLen | data bytes` with the `u32`
fields in little-endian host order (`saveIndex`, search_engine.cpp:215-238).
The loader (`loadIndex`, search_engine.cpp:266-309) reads records until
EOF; its behaviour on truncated input follows the C++ exactly: a failed
`termLen` read merely breaks the loop (silent success), a data read that
hits EOF keeps the zero-initialized tail of the vector and still inserts
the record, and the paths that would read the uninitialized `dataSize`
after an earlier failed read are undefined behaviour, modelled as `none`. -/

/-- The four little-endian bytes of a `uint32` as written by
`invFile.write(reinterpret_cast<const char*>(&len), 4)`. -/
def u32le (n : ℕ) : List ℕ :=
  [n % 256, n / 256 % 256, n / 65536 % 256, n / 16777216 % 256]

/-- Reading a `uint32` (4 little-endian bytes) from the stream; fewer than
4 bytes means the read fails. -/
def readU32 : List ℕ → Option (ℕ × List ℕ)
  | b0 :: b1 :: b2 :: b3 :: rest => some (b0 + 256 * b1 + 65536 * b2 + 16777216 * b3, rest)
  | _ => none

/-- `SearchEngine::saveIndex` (search_engine.cpp:225-236), inverted-index
file: one length-prefixed record per map entry, in iteration order. -/
def saveInvIndex : List (List ℕ × List ℕ) → List ℕ
  | [] => []
  | (term, data) :: rest =>
    u32le term.length ++ (term ++ (u32le data.length ++ (data ++ saveInvIndex rest)))

lemma readU32_length (l : List ℕ) (v : ℕ) (r : List ℕ) (h : readU32 l = some (v, r)) :
    r.length + 4 = l.length := by
  match l with
  | b0 :: b1 :: b2 :: b3 :: rest =>
    simp only [readU32, Option.some.injEq, Prod.mk.injEq] at h
    rw [← h.2]
    simp
  | [] => simp [readU32] at h
  | [b0] => simp [readU32] at h
  | [b0, b1] => simp [readU32] at h
  | [b0, b1, b2] => simp [readU32] at h

/-- Read loop of `SearchEngine::loadIndex` (search_engine.cpp:278-295).
A failed `termLen` read breaks out of the loop (the caller still reports
success); a term read past EOF leaves the stream failed so that the
following `dataSize` read uses an uninitialized value — undefined
behaviour, modelled `none`; a data read past EOF keeps the
zero-initialized vector tail, inserts the record, and the loop then ends
at EOF. -/
def loadInvLoop : List ℕ → Option (List (List ℕ × List ℕ))
  | [] => some []
  | b :: rest =>
    match h1 : readU32 (b :: rest) with
    | none => some []
    | some (termLen, r1) =>
      if r1.length < termLen then none
      else
        match h2 : readU32 (r1.drop termLen) with
        | none => none
        | some (dataLen, r3) =>
          if r3.length < dataLen then
            some [(r1.take termLen, r3 ++ List.replicate (dataLen - r3.length) 0)]
          else
            match loadInvLoop (r3.drop dataLen) with
            | none => none
            | some es => some ((r1.take termLen, r3.take dataLen) :: es)
  termination_by l => l.length
  decreasing_by
    have e1 := readU32_length _ _ _ h1
    have e2 := readU32_length _ _ _ h2
    simp only [List.length_drop] at e2 ⊢
    omega

/-- `SearchEngine::loadIndex` (search_engine.cpp:266-309), inverted-index
phase: run the record loop over the whole byte stream. -/
def loadInvIndex (bytes : List ℕ) : Option (List (List ℕ × List ℕ)) :=
  loadInvLoop bytes

lemma readU32_u32le (n : ℕ) (r : List ℕ) (h : n < 2 ^ 32) :
    readU32 (u32le n ++ r) = some (n, r) := by
  rw [u32le]
  simp only [List.cons_append, List.nil_append, readU32, Option.some.injEq, Prod.mk.injEq]
  exact ⟨by omega, trivial⟩

lemma loadInvLoop_record (term data rest : List ℕ)
    (hterm : term.length < 2 ^ 32) (hdata : data.length < 2 ^ 32) :
    loadInvLoop (u32le term.length ++ (term ++ (u32le data.length ++ (data ++ rest)))) =
      match loadInvLoop rest with
      | none => none
      | some es => some ((term, data) :: es) := by
  have hr1 := readU32_u32le term.length (term ++ (u32le data.length ++ (data ++ rest))) hterm
  have hr2 := readU32_u32le data.length (data ++ rest) hdata
  have hbytes : ∃ b bs, u32le term.length ++ (term ++ (u32le data.length ++ (data ++ rest))) =
      b :: bs := by
    rw [u32le]
    exact ⟨_, _, rfl⟩
  obtain ⟨b, bs, hb⟩ := hbytes
  rw [hb] at hr1 ⊢
  rw [loadInvLoop]
  split
  · rename_i heq
    rw [hr1] at heq
    exact absurd heq (by simp)
  · rename_i termLen r1 heq
    rw [hr1] at heq
    simp only [Option.some.injEq, Prod.mk.injEq] at heq
    obtain ⟨rfl, rfl⟩ := heq
    rw [if_neg (by simp [List.length_append])]
    have htake : (term ++ (u32le data.length ++ (data ++ rest))).take term.length = term :=
      List.take_left term _
    have hdrop : (term ++ (u32le data.length ++ (data ++ rest))).drop term.length =
        u32le data.length ++ (data ++ rest) :=
      List.drop_left term _
    rw [hdrop] at *
    split
    · rename_i heq2
      rw [hr2] at heq2
      exact absurd heq2 (by simp)
    · rename_i dataLen r3 heq2
      rw [hr2] at heq2
      simp only [Option.some.injEq, Prod.mk.injEq] at heq2
      obtain ⟨rfl, rfl⟩ := heq2
      rw [if_neg (by simp [List.length_append])]
      rw [htake, List.take_left data rest, List.drop_left data rest]

lemma loadInv_saveInv (entries : List (List ℕ × List ℕ))
    (hb : ∀ e ∈ entries, e.1.length < 2 ^ 32 ∧ e.2.length < 2 ^ 32) :
    loadInvIndex (saveInvIndex entries) = some entries := by
  rw [loadInvIndex]
  induction entries with
  | nil => rw [saveInvIndex, loadInvLoop]
  | cons e rest ih =>
    obtain ⟨term, data⟩ := e
    have he := hb (term, data) (by simp)
    rw [saveInvIndex, loadInvLoop_record term data (saveInvIndex rest) he.1 he.2]
    rw [ih (fun x hx => hb x (by simp [hx]))]

/-- ASCII decimal digit test, as used by `operator>>` for integers. -/
def isDigitByte (b : ℕ) : Bool :=
  if 48 ≤ b ∧ b ≤ 57 then true else false

/-- C++ whitespace (`' '`, `\t`, `\n`, `\v`, `\f`, `\r`), skipped by
formatted input and by `std::ws`. -/
def isSpaceByte (b : ℕ) : Bool :=
  if b = 32 ∨ (9 ≤ b ∧ b ≤ 13) then true else false

/-- Skip leading whitespace, as formatted `operator>>` input does. -/
def skipWs : List ℕ → List ℕ
  | [] => []
  | b :: rest => if isSpaceByte b then skipWs rest else b :: rest

/-- Greedy digit accumulation of `operator>> int` once a digit was seen. -/
def parseNatLoop : List ℕ → ℕ → ℕ × List ℕ
  | [], acc => (acc, [])
  | b :: rest, acc =>
    if isDigitByte b then parseNatLoop rest (acc * 10 + (b - 48)) else (acc, b :: rest)

/-- `operator>> int` on the non-negative decimal numbers of the metadata
files: skip whitespace, then read at least one digit; anything else fails
the extraction. -/
def parseNat (l : List ℕ) : Option (ℕ × List ℕ) :=
  match skipWs l with
  | [] => none
  | b :: rest => if isDigitByte b then some (parseNatLoop (b :: rest) 0) else none

/-- Decimal ASCII rendering of a natural, as `operator<<` prints it. -/
def natDec (n : ℕ) : List ℕ :=
  if n = 0 then [48] else (Nat.digits 10 n).reverse.map (fun d => d + 48)

/-- `SearchEngine::saveIndex` (search_engine.cpp:240-249), docLengths file:
one `<docId> <length>\n` line per map entry. -/
def saveDocLengths : List (ℕ × ℕ) → List ℕ
  | [] => []
  | (i, v) :: rest => natDec i ++ (32 :: (natDec v ++ (10 :: saveDocLengths rest)))

lemma skipWs_length_le (l : List ℕ) : (skipWs l).length ≤ l.length := by
  induction l with
  | nil => simp [skipWs]
  | cons b rest ih =>
    rw [skipWs]
    split
    · simp
      omega
    · simp

lemma parseNatLoop_length_le (l : List ℕ) :
    ∀ acc, (parseNatLoop l acc).2.length ≤ l.length := by
  induction l with
  | nil => intro acc; simp [parseNatLoop]
  | cons b rest ih =>
    intro acc
    rw [parseNatLoop]
    split
    · have := ih (acc * 10 + (b - 48))
      simp
      omega
    · simp

lemma parseNat_length (l : List ℕ) (v : ℕ) (r : List ℕ) (h : parseNat l = some (v, r)) :
    r.length < l.length := by
  rw [parseNat] at h
  have hsk := skipWs_length_le l
  split at h
  · exact absurd h (by simp)
  · rename_i b rest heq
    split at h
    · simp only [Option.some.injEq] at h
      have hlen : rest.length + 1 ≤ l.length := by
        have : (b :: rest).length ≤ l.length := heq ▸ hsk
        simpa using this
      rw [parseNatLoop] at h
      split at h
      · have hloop := parseNatLoop_length_le rest (0 * 10 + (b - 48))
        rw [h] at hloop
        have hloop2 : r.length ≤ rest.length := hloop
        omega
      · exact absurd ‹isDigitByte b = true› ‹¬isDigitByte b = true›
    · exact absurd h (by simp)

/-- Loop of `SearchEngine::loadIndexMetadata` (search_engine.cpp:320-325):
`while (lenFile >> id >> length) insert(id, length)`. -/
def parseDocLengths (l : List ℕ) : List (ℕ × ℕ) :=
  match h1 : parseNat l with
  | none => []
  | some (id, r1) =>
    match h2 : parseNat r1 with
    | none => []
    | some (len, r2) => (id, len) :: parseDocLengths r2
  termination_by l.length
  decreasing_by
    have e1 := parseNat_length _ _ _ h1
    have e2 := parseNat_length _ _ _ h2
    omega

lemma foldr_eq_ofDigits (L : List ℕ) :
    L.foldr (fun d a => a * 10 + d) 0 = Nat.ofDigits 10 L := by
  induction L with
  | nil => simp [Nat.ofDigits]
  | cons d L ih =>
    rw [List.foldr_cons, ih, Nat.ofDigits_cons]
    push_cast
    omega

lemma natDec_foldl (n : ℕ) :
    (natDec n).foldl (fun a d => a * 10 + (d - 48)) 0 = n := by
  rw [natDec]
  split
  · simp_all
  · rw [List.foldl_map]
    have hfun : (fun (a x : ℕ) => a * 10 + (x + 48 - 48)) = fun (a x : ℕ) => a * 10 + x := by
      funext a x
      omega
    rw [hfun, List.foldl_reverse, foldr_eq_ofDigits, Nat.ofDigits_digits]

lemma natDec_digits (n : ℕ) : ∀ d ∈ natDec n, isDigitByte d = true := by
  rw [natDec]
  split
  · intro d hd
    simp only [List.mem_singleton] at hd
    subst hd
    rfl
  · intro d hd
    simp only [List.mem_map, List.mem_reverse] at hd
    obtain ⟨x, hx, rfl⟩ := hd
    have := Nat.digits_lt_base (by norm_num) hx
    simp only [isDigitByte]
    rw [if_pos (by omega)]

lemma natDec_ne_nil (n : ℕ) : natDec n ≠ [] := by
  rw [natDec]
  split
  · simp
  · intro h
    rw [List.map_eq_nil_iff, List.reverse_eq_nil_iff] at h
    exact absurd h (Nat.digits_ne_nil_iff_ne_zero.mpr (by omega))

lemma parseNatLoop_append_digits : ∀ (ds : List ℕ) (r : List ℕ) (acc : ℕ),
    (∀ d ∈ ds, isDigitByte d = true) → (∀ b ∈ r.head?, isDigitByte b = false) →
    parseNatLoop (ds ++ r) acc = (ds.foldl (fun a d => a * 10 + (d - 48)) acc, r) := by
  intro ds
  induction ds with
  | nil =>
    intro r acc _ hr
    cases r with
    | nil => rw [List.nil_append, parseNatLoop, List.foldl_nil]
    | cons b rest =>
      rw [List.nil_append, parseNatLoop, List.foldl_nil,
        if_neg (by simp [hr b (by simp)])]
  | cons d ds ih =>
    intro r acc hds hr
    rw [List.cons_append, parseNatLoop, if_pos (hds d (by simp)), List.foldl_cons]
    exact ih r _ (fun x hx => hds x (by simp [hx])) hr

lemma digit_not_space (b : ℕ) (h : isDigitByte b = true) : isSpaceByte b = false := by
  simp only [isDigitByte] at h
  simp only [isSpaceByte]
  split at h
  · rw [if_neg (by omega)]
  · simp at h

lemma parseNat_natDec (n : ℕ) (r : List ℕ) (hr : ∀ b ∈ r.head?, isDigitByte b = false) :
    parseNat (natDec n ++ r) = some (n, r) := by
  cases hd : natDec n with
  | nil => exact absurd hd (natDec_ne_nil n)
  | cons d0 ds =>
    have hd0 : isDigitByte d0 = true := natDec_digits n d0 (by simp [hd])
    have hskip : skipWs ((d0 :: ds) ++ r) = d0 :: (ds ++ r) := by
      rw [List.cons_append, skipWs, if_neg (by simp [digit_not_space d0 hd0])]
    rw [parseNat]
    simp only [hskip]
    rw [if_pos hd0, ← List.cons_append, ← hd,
      parseNatLoop_append_digits (natDec n) r 0 (natDec_digits n) hr, natDec_foldl]

lemma skipWs_cons_space (b : ℕ) (l : List ℕ) (hb : isSpaceByte b = true) :
    skipWs (b :: l) = skipWs l := by
  rw [skipWs, if_pos hb]

lemma parseNat_cons_space (b : ℕ) (l : List ℕ) (hb : isSpaceByte b = true) :
    parseNat (b :: l) = parseNat l := by
  rw [parseNat, parseNat, skipWs_cons_space b l hb]

lemma parseDocLengths_step_none (l : List ℕ) (h : parseNat l = none) :
    parseDocLengths l = [] := by
  rw [parseDocLengths]
  split
  · rfl
  · rename_i id r1 heq
    rw [h] at heq
    exact absurd heq (by simp)

lemma parseDocLengths_step (l : List ℕ) (id : ℕ) (r1 : List ℕ) (len : ℕ) (r2 : List ℕ)
    (h1 : parseNat l = some (id, r1)) (h2 : parseNat r1 = some (len, r2)) :
    parseDocLengths l = (id, len) :: parseDocLengths r2 := by
  rw [parseDocLengths]
  split
  · rename_i heq
    rw [h1] at heq
    exact absurd heq (by simp)
  · rename_i id2 r12 heq
    rw [h1] at heq
    simp only [Option.some.injEq, Prod.mk.injEq] at heq
    obtain ⟨rfl, rfl⟩ := heq
    split
    · rename_i heq2
      rw [h2] at heq2
      exact absurd heq2 (by simp)
    · rename_i len2 r22 heq2
      rw [h2] at heq2
      simp only [Option.some.injEq, Prod.mk.injEq] at heq2
      obtain ⟨rfl, rfl⟩ := heq2
      rfl

lemma parseDocLengths_step_none2 (l : List ℕ) (id : ℕ) (r1 : List ℕ)
    (h1 : parseNat l = some (id, r1)) (h2 : parseNat r1 = none) :
    parseDocLengths l = [] := by
  rw [parseDocLengths]
  split
  · rfl
  · rename_i id2 r12 heq
    rw [h1] at heq
    simp only [Option.some.injEq, Prod.mk.injEq] at heq
    obtain ⟨rfl, rfl⟩ := heq
    split
    · rfl
    · rename_i len2 r22 heq2
      rw [h2] at heq2
      exact absurd heq2 (by simp)

lemma parseDocLengths_cons_space (b : ℕ) (l : List ℕ) (hb : isSpaceByte b = true) :
    parseDocLengths (b :: l) = parseDocLengths l := by
  have hpn : parseNat (b :: l) = parseNat l := parseNat_cons_space b l hb
  cases h1 : parseNat l with
  | none =>
    rw [parseDocLengths_step_none l h1, parseDocLengths_step_none (b :: l) (by rw [hpn, h1])]
  | some pr =>
    obtain ⟨id, r1⟩ := pr
    cases h2 : parseNat r1 with
    | none =>
      rw [parseDocLengths_step_none2 l id r1 h1 h2,
        parseDocLengths_step_none2 (b :: l) id r1 (by rw [hpn, h1]) h2]
    | some pr2 =>
      obtain ⟨len, r2⟩ := pr2
      rw [parseDocLengths_step l id r1 len r2 h1 h2,
        parseDocLengths_step (b :: l) id r1 len r2 (by rw [hpn, h1]) h2]

lemma parseDocLengths_save (lens : List (ℕ × ℕ)) :
    parseDocLengths (saveDocLengths lens) = lens := by
  induction lens with
  | nil =>
    rw [saveDocLengths]
    exact parseDocLengths_step_none [] rfl
  | cons p rest ih =>
    obtain ⟨i, v⟩ := p
    rw [saveDocLengths]
    have h1 : parseNat (natDec i ++ (32 :: (natDec v ++ (10 :: saveDocLengths rest)))) =
        some (i, 32 :: (natDec v ++ (10 :: saveDocLengths rest))) :=
      parseNat_natDec i _ (by intro b hb; simp at hb; subst hb; rfl)
    have h2 : parseNat (32 :: (natDec v ++ (10 :: saveDocLengths rest))) =
        some (v, 10 :: saveDocLengths rest) := by
      rw [parseNat_cons_space _ _ (by rfl)]
      exact parseNat_natDec v _ (by intro b hb; simp at hb; subst hb; rfl)
    rw [parseDocLengths_step _ i _ v _ h1 h2,
      parseDocLengths_cons_space 10 _ (by rfl), ih]

/-- `std::getline`: take bytes up to the next newline, consuming it. -/
def getLine : List ℕ → List ℕ × List ℕ
  | [] => ([], [])
  | b :: rest =>
    if b = 10 then ([], rest)
    else ((b :: (getLine rest).1), (getLine rest).2)

/-- `SearchEngine::saveIndex` (search_engine.cpp:251-260), docNames file:
one `<docId> <name>\n` line per map entry. -/
def saveDocNames : List (ℕ × List ℕ) → List ℕ
  | [] => []
  | (i, name) :: rest => natDec i ++ (32 :: (name ++ (10 :: saveDocNames rest)))

lemma getLine_length_le (l : List ℕ) : (getLine l).2.length ≤ l.length := by
  induction l with
  | nil => simp [getLine]
  | cons b rest ih =>
    rw [getLine]
    split
    · simp
    · simpa using Nat.le_succ_of_le ih

lemma getLine_cons_lt (b : ℕ) (rest : List ℕ) :
    (getLine (b :: rest)).2.length < (b :: rest).length := by
  rw [getLine]
  split
  · simp
  · have := getLine_length_le rest
    simp
    omega

/-- Loop of `SearchEngine::loadIndexMetadata` (search_engine.cpp:331-337):
`while (namesFile >> id >> std::ws && std::getline(namesFile, name))
   if (!name.empty()) insert(id, name)`. -/
def parseDocNames (l : List ℕ) : List (ℕ × List ℕ) :=
  match h1 : parseNat l with
  | none => []
  | some (id, r1) =>
    match h2 : skipWs r1 with
    | [] => []
    | b :: rest =>
      if (getLine (b :: rest)).1 = [] then parseDocNames (getLine (b :: rest)).2
      else (id, (getLine (b :: rest)).1) :: parseDocNames (getLine (b :: rest)).2
  termination_by l.length
  decreasing_by
    all_goals
      have e1 := parseNat_length _ _ _ h1
      have e2 := skipWs_length_le r1
      rw [h2] at e2
      have e3 := getLine_cons_lt b rest
      simp at e2 e3
      omega

lemma getLine_no_newline (name : List ℕ) (rest : List ℕ) (h : ∀ b ∈ name, b ≠ 10) :
    getLine (name ++ (10 :: rest)) = (name, rest) := by
  induction name with
  | nil => rw [List.nil_append, getLine, if_pos rfl]
  | cons b ntail ih =>
    rw [List.cons_append, getLine, if_neg (h b (by simp)),
      ih (fun x hx => h x (by simp [hx]))]

lemma parseDocNames_step_none (l : List ℕ) (h : parseNat l = none) :
    parseDocNames l = [] := by
  rw [parseDocNames]
  split
  · rfl
  · rename_i id r1 heq
    rw [h] at heq
    exact absurd heq (by simp)

lemma parseDocNames_step (l : List ℕ) (id : ℕ) (r1 : List ℕ) (b : ℕ) (rest : List ℕ)
    (name : List ℕ) (r3 : List ℕ)
    (h1 : parseNat l = some (id, r1)) (h2 : skipWs r1 = b :: rest)
    (h3 : getLine (b :: rest) = (name, r3)) (hname : name ≠ []) :
    parseDocNames l = (id, name) :: parseDocNames r3 := by
  rw [parseDocNames]
  split
  · rename_i heq
    rw [h1] at heq
    exact absurd heq (by simp)
  · rename_i id2 r12 heq
    rw [h1] at heq
    simp only [Option.some.injEq, Prod.mk.injEq] at heq
    obtain ⟨rfl, rfl⟩ := heq
    split
    · rename_i heq2
      rw [h2] at heq2
      exact absurd heq2 (by simp)
    · rename_i b2 rest2 heq2
      rw [h2] at heq2
      simp only [List.cons.injEq] at heq2
      obtain ⟨rfl, rfl⟩ := heq2
      rw [h3]
      rw [if_neg (by simpa using hname)]

lemma parseDocNames_save (names : List (ℕ × List ℕ))
    (h : ∀ p ∈ names, p.2 ≠ [] ∧ (∀ b ∈ p.2, b ≠ 10) ∧
      (∀ b ∈ p.2.head?, isSpaceByte b = false)) :
    parseDocNames (saveDocNames names) = names := by
  induction names with
  | nil =>
    rw [saveDocNames]
    exact parseDocNames_step_none [] rfl
  | cons p rest ih =>
    obtain ⟨i, name⟩ := p
    obtain ⟨hne, hnl, hhead⟩ := h (i, name) (by simp)
    rw [saveDocNames]
    have h1 : parseNat (natDec i ++ (32 :: (name ++ (10 :: saveDocNames rest)))) =
        some (i, 32 :: (name ++ (10 :: saveDocNames rest))) :=
      parseNat_natDec i _ (by intro b hb; simp at hb; subst hb; rfl)
    cases hn : name with
    | nil => exact absurd hn hne
    | cons n0 ntail =>
      have hn0 : isSpaceByte n0 = false := by
        apply hhead
        rw [hn]
        simp
      have h2 : skipWs (32 :: (name ++ (10 :: saveDocNames rest))) =
          n0 :: (ntail ++ (10 :: saveDocNames rest)) := by
        rw [skipWs_cons_space _ _ (by rfl), hn, List.cons_append, skipWs, if_neg (by simp [hn0])]
      have h3 : getLine (n0 :: (ntail ++ (10 :: saveDocNames rest))) =
          (name, saveDocNames rest) := by
        rw [← List.cons_append, ← hn]
        exact getLine_no_newline name (saveDocNames rest) hnl
      rw [← hn]
      rw [parseDocNames_step _ i _ n0 _ name (saveDocNames rest) h1 h2 h3 hne,
        ih (fun q hq => h q (by simp [hq]))]

/-- `SearchEngine::getDocumentsForTerm` (search_engine.cpp:467-481): look
the term up in the inverted index (association by key, unique keys),
decompress, and collect the docIds into a set.  An absent term gives the
empty set; a decode failure would propagate an exception, modelled by the
empty default. -/
def getDocumentsForTerm (entries : List (List ℕ × List ℕ)) (term : List ℕ) : Finset ℕ :=
  match entries.find? (fun e => e.1 = term) with
  | none => ∅
  | some e => (((decompressPostingList e.2).getD []).map (fun p => p.1.toNat)).toFinset

/-- `SearchEngine::calculateTfIdfScores` (search_engine.cpp:620-654) as the
score of one document `d`: every query term found in the index contributes
`(tf_raw / docLength d) * idf(totalDocs, df)` for each of its postings on
`d`, skipping documents with missing or zero length.  The logarithm of the
source (`std::log(N / df)`) is abstracted as the parameter `idf`; the
docLengths table is consulted with last-insert-wins semantics. -/
def calculateTfIdfScores (idf : ℕ → ℕ → ℚ) (entries : List (List ℕ × List ℕ))
    (docLengths : List (ℕ × ℕ)) (totalDocs : ℕ) (queryTerms : List (List ℕ)) (d : ℕ) : ℚ :=
  match queryTerms with
  | [] => 0
  | t :: rest =>
    (match entries.find? (fun e => e.1 = t) with
     | none => 0
     | some e =>
       ((((decompressPostingList e.2).getD []).filter (fun p => p.1.toNat = d)).map
         (fun p =>
           match docLengths.reverse.find? (fun q => q.1 = d) with
           | none => 0
           | some q =>
             if q.2 = 0 then 0
             else (p.2 : ℚ) * idf totalDocs ((decompressPostingList e.2).getD []).length
               / (q.2 : ℚ))).sum)
    + calculateTfIdfScores idf entries docLengths totalDocs rest d

/-- `SearchEngine::getDocumentPath` (search_engine.cpp:797-803): the corpus
directory, a slash and the stored filename; an unknown docId falls back to
`<docId>.txt`.  The docNames table is consulted with last-insert-wins
semantics. -/
def getDocumentPath (dataDir : List ℕ) (docNames : List (ℕ × List ℕ)) (docId : ℕ) : List ℕ :=
  match docNames.reverse.find? (fun p => p.1 = docId) with
  | none => dataDir ++ (47 :: (natDec docId ++ [46, 116, 120, 116]))
  | some p => dataDir ++ (47 :: p.2)

/-- One position of `std::string::find`: the haystack starts with the
needle. -/
def bytesStartWith : List ℕ → List ℕ → Bool
  | _, [] => true
  | [], _ :: _ => false
  | h :: hs, n :: ns => if h = n then bytesStartWith hs ns else false

/-- `lowerContent.find(term) != std::string::npos` over byte strings: some
position of the haystack starts with the needle. -/
def bytesContain (hay needle : List ℕ) : Bool :=
  match hay with
  | [] => bytesStartWith [] needle
  | h :: hs => if bytesStartWith (h :: hs) needle then true else bytesContain hs needle

/-- `SearchEngine::verifyRequiredTermsInDocument` (search_engine.cpp:555-574):
read the document named by the docNames table (the filesystem abstracted as
`fs`, an unreadable file yielding the empty string as in
`FileUtils::readFileContent`), reject empty content, lowercase it, and
require every required term to occur as a substring. -/
def verifyRequiredTermsInDocument (fs : List ℕ → List ℕ) (dataDir : List ℕ)
    (docNames : List (ℕ × List ℕ)) (docId : ℕ) (terms : List (List ℕ)) : Bool :=
  if fs (getDocumentPath dataDir docNames docId) = [] then false
  else terms.all (fun t => bytesContain (toLowerCase (fs (getDocumentPath dataDir docNames docId))) t)

lemma vbyteEncode_one : vbyteEncode 1 = [129] := by
  rw [vbyteEncode]
  norm_num

lemma decompressPostingList_129_129 :
    decompressPostingList [129, 129] = some [((1 : ℤ), (1 : ℤ))] := by
  have hsplit : ([129, 129] : List ℕ) = vbyteEncode 1 ++ (vbyteEncode 1 ++ []) := by
    rw [vbyteEncode_one]
    rfl
  rw [decompressPostingList, if_neg (by simp), hsplit,
    decompressLoop_cons 1 1 [] 0 (by norm_num) (by norm_num)]
  rw [decompressLoop]
  norm_num

lemma getDocumentsForTerm_single :
    getDocumentsForTerm [([97], [129, 129])] [97] = {1} := by
  show ((((decompressPostingList [129, 129]).getD []).map (fun p => p.1.toNat)).toFinset :
    Finset ℕ) = {1}
  rw [decompressPostingList_129_129]
  decide

lemma toLowerCase_a : toLowerCase [97] = [97] := by
  rw [toLowerCase, stringToCodes_ascii 97 [] (by omega), stringToCodes]
  rfl

/-- Amended C3: for a built state whose record lengths fit in a `u32` and
whose filenames are non-empty, contain no newline and do not start with
whitespace, saving and loading reconstructs the inverted index, the
docLengths table and the docNames table exactly, the document count
recovered from the loaded docLengths equals the built one, and every
boolean query (with its content-verification pass reading the corpus
through the reloaded docNames table) and every TF-IDF score computed
against the loaded state equals the one computed against the built state.
Outside this restriction the round-trip genuinely fails on the source —
see the counterexample below. -/
theorem c3_save_load_roundtrip (entries : List (List ℕ × List ℕ))
    (lens : List (ℕ × ℕ)) (names : List (ℕ × List ℕ))
    (hentry : ∀ e ∈ entries, e.1.length < 2 ^ 32 ∧ e.2.length < 2 ^ 32)
    (hnames : ∀ p ∈ names, p.2 ≠ [] ∧ (∀ b ∈ p.2, b ≠ 10) ∧
      (∀ b ∈ p.2.head?, isSpaceByte b = false)) :
    loadInvIndex (saveInvIndex entries) = some entries ∧
    parseDocLengths (saveDocLengths lens) = lens ∧
    parseDocNames (saveDocNames names) = names ∧
    (parseDocLengths (saveDocLengths lens)).length = lens.length ∧
    (∀ fs : List ℕ → List ℕ, ∀ dataDir : List ℕ, ∀ q : BooleanQuery (List ℕ),
      executeBooleanQuery
        (getDocumentsForTerm ((loadInvIndex (saveInvIndex entries)).getD []))
        (fun d ts => verifyRequiredTermsInDocument fs dataDir
          (parseDocNames (saveDocNames names)) d ts) q =
      executeBooleanQuery (getDocumentsForTerm entries)
        (fun d ts => verifyRequiredTermsInDocument fs dataDir names d ts) q) ∧
    (∀ idf : ℕ → ℕ → ℚ, ∀ terms : List (List ℕ), ∀ d : ℕ,
      calculateTfIdfScores idf ((loadInvIndex (saveInvIndex entries)).getD [])
        (parseDocLengths (saveDocLengths lens))
        (parseDocLengths (saveDocLengths lens)).length terms d =
      calculateTfIdfScores idf entries lens lens.length terms d) := by
  have h1 := loadInv_saveInv entries hentry
  have h2 := parseDocLengths_save lens
  have h3 := parseDocNames_save names hnames
  refine ⟨h1, h2, h3, by rw [h2], ?_, ?_⟩
  · intro fs dataDir q
    rw [h1, h3]
    rfl
  · intro idf terms d
    rw [h1, h2]
    rfl

/-- Witness for C3 at a one-record index, one docLength and one docName. -/
theorem c3_save_load_roundtrip_witness :
    loadInvIndex (saveInvIndex [([97], [128])]) = some [([97], [128])] ∧
    parseDocLengths (saveDocLengths [(1, 2)]) = [(1, 2)] ∧
    parseDocNames (saveDocNames [(1, [97])]) = [(1, [97])] := by
  have h := c3_save_load_roundtrip [([97], [128])] [(1, 2)] [(1, [97])]
    (by
      intro e he
      simp only [List.mem_singleton] at he
      subst he
      norm_num)
    (by
      intro p hp
      simp only [List.mem_singleton] at hp
      subst hp
      refine ⟨by simp, ?_, ?_⟩
      · intro b hb
        simp only [List.mem_singleton] at hb
        omega
      · intro b hb
        simp only [List.head?_cons, Option.mem_def, Option.some.injEq] at hb
        subst hb
        rfl)
  exact ⟨h.1, h.2.1, h.2.2.1⟩

/-- Claim C8, evaluation at the failing inputs: a stream consisting of a
truncated `termLen` field (bytes `01 00`) makes `loadIndex`'s read loop
break and report success with an empty index, and the same truncated bytes
after one complete record are silently dropped with success — the loader
does not report failure on a truncated trailing record. -/
theorem c8_truncated_load_succeeds :
    loadInvIndex [1, 0] = some [] ∧
    loadInvIndex (saveInvIndex [([97], [128])] ++ [1, 0]) = some [([97], [128])] := by
  have hfail : loadInvLoop [1, 0] = some [] := by
    rw [loadInvLoop]
    split
    · rfl
    · rename_i termLen r1 heq
      rw [show readU32 [1, 0] = none from rfl] at heq
      exact absurd heq (by simp)
  constructor
  · exact hfail
  · have hrec := loadInvLoop_record [97] [128] [1, 0] (by norm_num) (by norm_num)
    have hassoc : saveInvIndex [([97], [128])] ++ [1, 0] =
        u32le ([97] : List ℕ).length ++
          ([97] ++ (u32le ([128] : List ℕ).length ++ ([128] ++ [1, 0]))) := by
      rw [saveInvIndex, saveInvIndex]
      simp [List.append_assoc]
    rw [loadInvIndex, hassoc, hrec, hfail]

/-- Counterexample for C3: the one-document corpus whose file is named
`" a"` (leading space, docId 1, content `"a"`, corpus directory `"d"`).
The built docNames table maps `1 ↦ " a"`, but reloading its saved form
goes through `namesFile >> id >> std::ws` (search_engine.cpp:333), which
eats the name's leading space, so the reloaded table maps `1 ↦ "a"`.  The
content-verification pass of the boolean query `+a` then opens `d/a`
instead of `d/ a`, reads nothing, and drops the only candidate: the query
returns `[1]` against the built state but `[]` against the reloaded state,
refuting the claim for this corpus. -/
theorem c3_counterexample :
    parseDocNames (saveDocNames [(1, [32, 97])]) = [(1, [97])] ∧
    executeBooleanQuery (getDocumentsForTerm [([97], [129, 129])])
      (fun d ts => verifyRequiredTermsInDocument
        (fun p => if p = [100, 47, 32, 97] then [97] else []) [100] [(1, [32, 97])] d ts)
      ⟨[[97]], [], []⟩ = [1] ∧
    executeBooleanQuery (getDocumentsForTerm [([97], [129, 129])])
      (fun d ts => verifyRequiredTermsInDocument
        (fun p => if p = [100, 47, 32, 97] then [97] else []) [100]
        (parseDocNames (saveDocNames [(1, [32, 97])])) d ts)
      ⟨[[97]], [], []⟩ = [] := by
  have hload : parseDocNames (saveDocNames [(1, [32, 97])]) = [(1, [97])] := by
    have hsave : saveDocNames [(1, [32, 97])] = natDec 1 ++ (32 :: ([32, 97] ++ (10 :: []))) := by
      rw [saveDocNames, saveDocNames]
    have h1 : parseNat (saveDocNames [(1, [32, 97])]) =
        some (1, 32 :: ([32, 97] ++ (10 :: []))) := by
      rw [hsave]
      exact parseNat_natDec 1 _ (by intro b hb; simp at hb; subst hb; rfl)
    have h2 : skipWs (32 :: ([32, 97] ++ (10 :: []))) = 97 :: [10] := rfl
    have h3 : getLine (97 :: [10]) = ([97], []) := rfl
    rw [parseDocNames_step _ 1 _ 97 [10] [97] [] h1 h2 h3 (by simp),
      parseDocNames_step_none [] rfl]
  have hcand : requiredCandidates (getDocumentsForTerm [([97], [129, 129])]) [[97]] =
      some {1} := by
    rw [requiredCandidates, getDocumentsForTerm_single, if_neg (by decide), requiredLoop]
  have hverT : verifyRequiredTermsInDocument
      (fun p => if p = [100, 47, 32, 97] then [97] else []) [100] [(1, [32, 97])] 1 [[97]] =
      true := by
    rw [verifyRequiredTermsInDocument,
      show getDocumentPath [100] [(1, [32, 97])] 1 = [100, 47, 32, 97] from rfl]
    simp [toLowerCase_a, bytesContain, bytesStartWith]
  have hverF : verifyRequiredTermsInDocument
      (fun p => if p = [100, 47, 32, 97] then [97] else []) [100] [(1, [97])] 1 [[97]] =
      false := by
    rw [verifyRequiredTermsInDocument,
      show getDocumentPath [100] [(1, [97])] 1 = [100, 47, 97] from rfl]
    simp
  refine ⟨hload, ?_, ?_⟩
  · rw [executeBooleanQuery_req_some _ _ _ [97] [] {1} rfl hcand,
      boolCandidates_req_some _ _ [97] [] {1} rfl hcand]
    simp [hverT, Finset.sort_singleton]
  · rw [hload]
    rw [executeBooleanQuery_req_some _ _ _ [97] [] {1} rfl hcand,
      boolCandidates_req_some _ _ [97] [] {1} rfl hcand]
    simp [hverF, Finset.sort_singleton]
